import Mathlib

/-!
Verification of the weight-tree, data-iterator and data-partitioner utilities
of a federated-learning experiment harness.

The embedding models numpy arrays as dense row-major tensors over the
rationals: a `Tensor` is a shape (list of dimension sizes) together with its
flat row-major data, carrying the numpy invariant that the number of stored
elements equals the product of the dimensions.  Fallible numpy operations
(reshape of a wrongly sized buffer, out-of-range list indexing, negative pad
widths, concatenation of an empty list of arrays) are modelled with `Option`,
`none` standing for a raised exception.
-/

namespace FL

/-- Product of the dimension sizes of a shape (the numpy `size` of an array). -/
def prodNat : List Nat → Nat
  | [] => 1
  | d :: ds => d * prodNat ds

/-- A dense numpy-style tensor: a shape plus its row-major flat data.
`hsize` is numpy's intrinsic invariant that the buffer holds exactly
`prod(shape)` elements. -/
structure Tensor where
  shape : List Nat
  data : List ℚ
  hsize : data.length = prodNat shape

instance : DecidableEq Tensor := fun a b =>
  decidable_of_iff (a.shape = b.shape ∧ a.data = b.data) (by
    constructor
    · rintro ⟨h1, h2⟩
      cases a
      cases b
      simp only at h1 h2
      subst h1
      subst h2
      rfl
    · rintro rfl
      exact ⟨rfl, rfl⟩)

instance : Inhabited Tensor := ⟨⟨[0], [], rfl⟩⟩

/-! ## Multi-index machinery for dense row-major arrays -/

/-- Row-major enumeration of every multi-index of a shape
(leading axis varies slowest, exactly numpy's element order). -/
def indices : List Nat → List (List Nat)
  | [] => [[]]
  | d :: ds => (List.range d).flatMap (fun i => (indices ds).map (fun ix => i :: ix))

/-- Whether a multi-index lies inside a shape: same rank and every
coordinate strictly below its dimension size. -/
def inBounds : List Nat → List Nat → Bool
  | [], [] => true
  | i :: ix, d :: ds => decide (i < d) && inBounds ix ds
  | _, _ => false

/-- Row-major flat offset of a multi-index within a shape. -/
def offsetOf : List Nat → List Nat → Nat
  | i :: ix, _ :: ds => i * prodNat ds + offsetOf ix ds
  | _, _ => 0

/-- The element of a tensor at a multi-index (row-major lookup). -/
def Tensor.get (t : Tensor) (ix : List Nat) : ℚ :=
  t.data.getD (offsetOf ix t.shape) 0

/-- Build a dense tensor of shape `s` whose element at multi-index `ix` is
`f ix`. -/
def tensorOfFn (s : List Nat) (f : List Nat → ℚ) : Tensor :=
  ⟨s, (indices s).map f, by
    rw [List.length_map]
    induction s with
    | nil => rfl
    | cons d ds ih =>
      simp only [indices, List.length_flatMap, Function.comp_def,
        List.length_map, List.map_const', List.sum_replicate, List.length_range,
        smul_eq_mul, prodNat, ih]⟩

/-! ## ravel / unravel / unraveller (src/ablation/utils/weights.py) -/

/-- `ravel(weights)`: `np.concatenate([np.ravel(x) for x in weights])`.
`np.ravel` of a dense array is its row-major data, and `np.concatenate`
raises `ValueError` when given an empty list of arrays, hence the `Option`. -/
def ravel (weights : List Tensor) : Option (List ℚ) :=
  match weights with
  | [] => none
  | _ => some ((weights.map Tensor.data).flatten)

/-- `unravel(weights, skeleton)`: walk the skeleton, slicing
`weights[i:i+length]` and reshaping it to `shape`.  The Python slice clamps at
the end of the vector (`List.take`), and `np.reshape` raises when the slice
does not hold exactly `prod(shape)` elements. -/
def unravel (weights : List ℚ) (skeleton : List (List Nat × Nat)) :
    Option (List Tensor) :=
  match skeleton with
  | [] => some []
  | (shape, len) :: rest =>
    let piece := weights.take len
    if h : piece.length = prodNat shape then
      (unravel (weights.drop len) rest).map (fun t => ⟨shape, piece, h⟩ :: t)
    else
      none

/-- `unraveller(weights)`: the `(shape, flat_length)` pair of every tensor,
in order.  numpy's `x.size` is the element count of the buffer, equal to
`prod(x.shape)` by `Tensor.hsize`. -/
def unraveller (weights : List Tensor) : List (List Nat × Nat) :=
  weights.map (fun x => (x.shape, x.data.length))

/-- Total sum of the flat lengths recorded in an unravel skeleton. -/
def skelLen (skeleton : List (List Nat × Nat)) : Nat :=
  (skeleton.map Prod.snd).sum

/-! ## Slicing, padding, named skeletons, partition / expand
(src/ablation/utils/weights.py) -/

/-- Pointwise comparison of two shapes: same rank and entrywise `≤`. -/
def shapeLE : List Nat → List Nat → Bool
  | [], [] => true
  | a :: xs, b :: ys => decide (a ≤ b) && shapeLE xs ys
  | _, _ => false

/-- Shape produced by numpy basic slicing `t[0:d0, 0:d1, ...]`: each sliced
axis clamps to the axis length (`min`), axes beyond the given slices are kept
whole. -/
def sliceShape : List Nat → List Nat → List Nat
  | [], s => s
  | _ :: _, [] => []
  | d :: ds, a :: bs => min d a :: sliceShape ds bs

/-- The leading sub-block of `t` selected by `t[0:d0, 0:d1, ...]`
(total core; numpy's rank check lives in `npSlice`). -/
def sliceT (t : Tensor) (dims : List Nat) : Tensor :=
  tensorOfFn (sliceShape dims t.shape) t.get

/-- numpy basic slicing `t[tuple(slice(i) for i in dims)]`: raises
`IndexError` when there are more slices than axes, otherwise takes the
clamped leading sub-block. -/
def npSlice (t : Tensor) (dims : List Nat) : Option Tensor :=
  if dims.length ≤ t.shape.length then some (sliceT t dims) else none

/-- Zero-padding of `t` at the trailing edge up to shape `dims`
(total core; np.pad's error cases live in `npPad`). -/
def padT (t : Tensor) (dims : List Nat) : Tensor :=
  tensorOfFn dims (fun ix => if inBounds ix t.shape then t.get ix else 0)

/-- `np.pad(t, tuple((0, b - ws) for b, ws in zip(dims, t.shape)))`: `zip`
truncates the width pairs to `min(len(dims), ndim)`; np.pad raises when it
receives fewer pairs than axes or any negative width, and otherwise pads each
axis at the trailing edge up to `dims[j]`. -/
def npPad (t : Tensor) (dims : List Nat) : Option Tensor :=
  if t.shape.length ≤ dims.length ∧
      shapeLE t.shape (dims.take t.shape.length) = true then
    some (padT t (dims.take t.shape.length))
  else none

/-- `np.zeros(dims)`. -/
def npZeros (dims : List Nat) : Tensor :=
  tensorOfFn dims (fun _ => 0)

/-- One entry of a named skeleton: `{'index': ..., 'shape': ...}`. -/
structure SkelEntry where
  index : Nat
  shape : List Nat
deriving DecidableEq

/-- A named skeleton: the insertion-ordered `name -> {index, shape}` dict. -/
abbrev Skel := List (String × SkelEntry)

/-- Python `k in skel`. -/
def keyMem (k : String) (skel : Skel) : Bool :=
  skel.any (fun p => p.1 == k)

/-- Python `skel[k]` (dict keys are unique, so the first match). -/
def skelFind (k : String) (skel : Skel) : Option SkelEntry :=
  (skel.find? (fun p => p.1 == k)).map Prod.snd

/-- `skeleton(model)`: `{w.name: {'index': i, 'shape': w.shape}}` over the
model's ordered, named weight tensors, here given as a parallel list of
names; `m` is the enumeration counter. -/
def mkSkelFrom (m : Nat) : List String → List Tensor → Skel
  | [], _ => []
  | _ :: _, [] => []
  | n :: ns, w :: ws => (n, ⟨m, w.shape⟩) :: mkSkelFrom (m + 1) ns ws

/-- `skeleton(model)` with enumeration starting at 0. -/
def skeleton (names : List String) (weights : List Tensor) : Skel :=
  mkSkelFrom 0 names weights

/-- `partition(weights, skel_from, skel_to)`: for every item of `skel_to`
whose name occurs in `skel_from`, slice `weights[skel_from[k].index]` down to
a leading sub-block with one slice per entry of `skel_to[k].shape`; names
absent from `skel_from` are dropped.  Out-of-range list indexing raises. -/
def partition (weights : List Tensor) (skelFrom skelTo : Skel) :
    Option (List Tensor) :=
  match skelTo with
  | [] => some []
  | (k, v) :: rest =>
    match skelFind k skelFrom with
    | none => partition weights skelFrom rest
    | some ge => do
      let w ← weights[ge.index]?
      let t ← npSlice w v.shape
      let ws ← partition weights skelFrom rest
      pure (t :: ws)

/-- Python `list.insert(i, x)`: inserts before position `i`, clamping `i` to
the end of the list. -/
def pyInsert (l : List Tensor) (i : Nat) (x : Tensor) : List Tensor :=
  l.take i ++ x :: l.drop i

/-- `expand(weights, skel_from, skel_to)`: walks `skel_to` in order; a name
also present in `skel_from` replaces `weights[v.index]` with its zero-padding
up to `v.shape`; an absent name inserts `np.zeros(v.shape)` at `v.index`.
The Python loop mutates `weights` in place; the state is threaded explicitly,
and reading `weights[v.index]` out of range raises. -/
def expand (weights : List Tensor) (skelFrom skelTo : Skel) :
    Option (List Tensor) :=
  match skelTo with
  | [] => some weights
  | (k, v) :: rest =>
    if keyMem k skelFrom then do
      let w ← weights[v.index]?
      let t ← npPad w v.shape
      expand (weights.set v.index t) skelFrom rest
    else
      expand (pyInsert weights v.index (npZeros v.shape)) skelFrom rest

/-- The value of `partition` under the preconditions of the round-trip law,
computed by walking the global name list, the global tensors and the local
skeleton together (the local skeleton's names are a subsequence of the
global names). -/
def sliceList : List String → List Tensor → Skel → List Tensor
  | [], _, _ => []
  | _ :: _, [], _ => []
  | _ :: _, _ :: _, [] => []
  | n :: ns, g :: gs, (k, e) :: rest =>
    if n == k then sliceT g e.shape :: sliceList ns gs rest
    else sliceList ns gs ((k, e) :: rest)

/-! ## Element-wise arithmetic with numpy broadcasting
(src/ablation/utils/weights.py) -/

/-- Left-pad a shape with 1s up to rank `r` (numpy aligns trailing axes). -/
def padShape (r : Nat) (s : List Nat) : List Nat :=
  List.replicate (r - s.length) 1 ++ s

/-- Axiswise broadcast compatibility of two equal-rank shapes: each axis
pair must be equal or contain a 1. -/
def bcAxes : List Nat → List Nat → Bool
  | [], [] => true
  | a :: xs, b :: ys => (a == b || a == 1 || b == 1) && bcAxes xs ys
  | _, _ => false

/-- numpy broadcast compatibility of two shapes. -/
def bcCompat (s t : List Nat) : Bool :=
  bcAxes (padShape (max s.length t.length) s) (padShape (max s.length t.length) t)

/-- The broadcast result shape: axiswise maximum after rank alignment. -/
def bcShape (s t : List Nat) : List Nat :=
  List.zipWith max (padShape (max s.length t.length) s)
    (padShape (max s.length t.length) t)

/-- The operand multi-index read for a broadcast result multi-index: keep the
trailing coordinates and zero the coordinate of every size-1 axis. -/
def bcIndex (s ix : List Nat) : List Nat :=
  List.zipWith (fun d i => if d == 1 then 0 else i) s
    (ix.drop (ix.length - s.length))

/-- An element-wise binary numpy array operation: broadcasts the two shapes,
raising on broadcast-incompatible shapes. -/
def tBinOp (f : ℚ → ℚ → ℚ) (a b : Tensor) : Option Tensor :=
  if bcCompat a.shape b.shape then
    some (tensorOfFn (bcShape a.shape b.shape)
      (fun ix => f (a.get (bcIndex a.shape ix)) (b.get (bcIndex b.shape ix))))
  else none

/-- A Python list comprehension over fallible element operations: any raised
element error aborts the whole comprehension. -/
def seqOption : List (Option Tensor) → Option (List Tensor)
  | [] => some []
  | none :: _ => none
  | some t :: rest => (seqOption rest).map (t :: ·)

/-- `mul(weights_a, weights_b)`: `[a * b for a, b in zip(...)]`; `zip`
truncates to the shorter tree and `a * b` follows numpy broadcasting. -/
def mul (wa wb : List Tensor) : Option (List Tensor) :=
  seqOption (List.zipWith (tBinOp (· * ·)) wa wb)

/-- `div(weights_a, weights_b)`: `[a / b for a, b in zip(...)]` (numpy true
division; the claims never observe quotient values, only success/failure,
so rational division stands in for float division). -/
def div (wa wb : List Tensor) : Option (List Tensor) :=
  seqOption (List.zipWith (tBinOp (· / ·)) wa wb)

/-- `sub(weights_a, weights_b)`: `[a - b for a, b in zip(...)]`. -/
def sub (wa wb : List Tensor) : Option (List Tensor) :=
  seqOption (List.zipWith (tBinOp (· - ·)) wa wb)

/-! ## DataIter (src/ablation/utils/datasets.py) -/

/-- The generator a `DataIter` holds, exposing
`rng.choice(idx, size, replace=False)`. -/
structure DRng where
  choice : List Nat → Nat → List Nat

/-- The `DataIter` state: the held sample and label arrays, the clamped
batch size, the reusable index range, the class count and the generator. -/
structure DataIter (α β : Type) where
  X : List α
  y : List β
  batch_size : Nat
  idx : List Nat
  classes : Nat
  rng : DRng

/-- `DataIter.__init__`: stores the data, sets
`batch_size = len(y) if batch_size is None else min(batch_size, len(y))`,
and builds `idx = arange(len(y))`. -/
def DataIter.init {α β : Type} (X : List α) (y : List β)
    (batchSize : Option Nat) (classes : Nat) (rng : DRng) : DataIter α β :=
  { X := X, y := y,
    batch_size := match batchSize with
      | none => y.length
      | some b => min b y.length,
    idx := List.range y.length,
    classes := classes, rng := rng }

/-- `DataIter.__next__`: `idx = rng.choice(self.idx, self.batch_size,
replace=False)` — numpy raises when `batch_size > len(idx)` — then the
fancy-indexed rows `X[idx], y[idx]` (raising on an out-of-range row).  It
never raises `StopIteration`. -/
def DataIter.next {α β : Type} (it : DataIter α β) :
    Option (List α × List β) :=
  if it.batch_size ≤ it.idx.length then
    (it.rng.choice it.idx it.batch_size).mapM (fun i => it.X[i]?) |>.bind
      (fun xs => ((it.rng.choice it.idx it.batch_size).mapM
        (fun i => it.y[i]?)).map (fun ys => (xs, ys)))
  else none

/-- `DataIter.map`: replaces `(X, y)` by `f(X, y)`, rebuilds `idx` from the
new label count and re-clamps the batch size against it (the stored batch
size is a number after `__init__`, so the `is None` test is always false). -/
def DataIter.map {α β : Type} (it : DataIter α β)
    (f : List α × List β → List α × List β) : DataIter α β :=
  { it with
    X := (f (it.X, it.y)).1,
    y := (f (it.X, it.y)).2,
    idx := List.range (f (it.X, it.y)).2.length,
    batch_size := min it.batch_size (f (it.X, it.y)).2.length }

/-- `DataIter.filter`: keeps the rows whose label passes the predicate
(`X[fidx], y[fidx]` for the boolean mask `fidx = f(y)`, pairing rows), then
rebuilds `idx` and re-clamps the batch size exactly as `map` does. -/
def DataIter.filter {α β : Type} (it : DataIter α β) (p : β → Bool) :
    DataIter α β :=
  { it with
    X := ((it.X.zip it.y).filter (fun ab => p ab.2)).map Prod.fst,
    y := ((it.X.zip it.y).filter (fun ab => p ab.2)).map Prod.snd,
    idx := List.range ((it.X.zip it.y).filter
      (fun ab => p ab.2)).length,
    batch_size := min it.batch_size ((it.X.zip it.y).filter
      (fun ab => p ab.2)).length }

/-- A `map` or `filter` call on a `DataIter`. -/
inductive DIterOp (α β : Type) where
  | map (f : List α × List β → List α × List β)
  | filter (p : β → Bool)

/-- Apply a sequence of `map`/`filter` calls in order. -/
def applyOps {α β : Type} (it : DataIter α β) :
    List (DIterOp α β) → DataIter α β
  | [] => it
  | DIterOp.map f :: rest => applyOps (it.map f) rest
  | DIterOp.filter p :: rest => applyOps (it.filter p) rest

/-- The `DataIter` invariant: the batch size never exceeds the number of
held labels, and `idx` is the full index range of the held labels. -/
def iterInv {α β : Type} (it : DataIter α β) : Prop :=
  it.batch_size ≤ it.y.length ∧ it.idx = List.range it.y.length

/-! ## Definition-time default generators
(weights.py uniform / add_normal) -/

/-- A numpy `Generator`: an abstract stream of unit draws and a cursor. -/
structure Rng where
  vals : Nat → ℚ
  pos : Nat

/-- Draw `n` values from a generator, advancing its cursor. -/
def drawN (r : Rng) (n : Nat) : List ℚ × Rng :=
  ((List.range n).map (fun j => r.vals (r.pos + j)), ⟨r.vals, r.pos + n⟩)

/-- The body of `uniform`: one location-scale transformed draw of
`prod(shape)` values per tensor, threading the generator through the tree. -/
def uniformDraw (low high : ℚ) : Rng → List Tensor → List Tensor × Rng
  | r, [] => ([], r)
  | r, t :: rest =>
    let step := uniformDraw low high (drawN r (prodNat t.shape)).2 rest
    (⟨t.shape,
      (drawN r (prodNat t.shape)).1.map (fun u => low + (high - low) * u), by
      simp [drawN]⟩ :: step.1, step.2)

/-- The body of `add_normal`: adds one location-scale transformed draw per
element to each tensor, threading the generator. -/
def addNormalDraw (loc scale : ℚ) : Rng → List Tensor → List Tensor × Rng
  | r, [] => ([], r)
  | r, t :: rest =>
    let step := addNormalDraw loc scale (drawN r (prodNat t.shape)).2 rest
    (⟨t.shape,
      List.zipWith (fun x u => x + (loc + scale * u)) t.data
        (drawN r (prodNat t.shape)).1, by
      simp [drawN, List.length_zipWith, t.hsize]⟩ :: step.1, step.2)

/-- The module state of weights.py: `rng=np.random.default_rng()` in a `def`
line is evaluated once, when the definition is executed, so every call that
omits `rng` shares (and advances) these module-level generator instances. -/
structure ModState where
  uniformDefault : Rng
  addNormalDefault : Rng

/-- `uniform(weights, low, high, rng=...)`: an explicit generator leaves the
module state untouched; an omitted one uses and advances the definition-time
default generator. -/
def uniformCall (weights : List Tensor) (low high : ℚ) (rng : Option Rng)
    (st : ModState) : List Tensor × ModState :=
  match rng with
  | some r => ((uniformDraw low high r weights).1, st)
  | none =>
    ((uniformDraw low high st.uniformDefault weights).1,
      { st with
        uniformDefault := (uniformDraw low high st.uniformDefault weights).2 })

/-- `add_normal(weights, loc, scale, rng=...)`: same defaulting scheme. -/
def addNormalCall (weights : List Tensor) (loc scale : ℚ) (rng : Option Rng)
    (st : ModState) : List Tensor × ModState :=
  match rng with
  | some r => ((addNormalDraw loc scale r weights).1, st)
  | none =>
    ((addNormalDraw loc scale st.addNormalDefault weights).1,
      { st with
        addNormalDefault :=
          (addNormalDraw loc scale st.addNormalDefault weights).2 })

/-! ## The Dirichlet ("LDA") data partitioner (src/performance/main.py) -/

/-- `np.round`: round half to even (banker's rounding). -/
def npRound (x : ℚ) : Int :=
  if x - ⌊x⌋ < 1/2 then ⌊x⌋
  else if 1/2 < x - ⌊x⌋ then ⌊x⌋ + 1
  else if ⌊x⌋ % 2 = 0 then ⌊x⌋ else ⌊x⌋ + 1

/-- `np.cumsum` with a running total. -/
def cumsumFrom (acc : ℚ) : List ℚ → List ℚ
  | [] => []
  | x :: xs => (acc + x) :: cumsumFrom (acc + x) xs

/-- `np.cumsum`. -/
def cumsum (l : List ℚ) : List ℚ :=
  cumsumFrom 0 l

/-- Clamp one integer bound of a Python slice to `[0, n]` (negative values
count from the end). -/
def pyClampIdx (n : Nat) (i : Int) : Nat :=
  if i < 0 then (max 0 ((n : Int) + i)).toNat else min i.toNat n

/-- Python slice `l[a:b]` with integer bounds. -/
def pySlice {γ : Type} (l : List γ) (a b : Int) : List γ :=
  (l.take (pyClampIdx l.length b)).drop (pyClampIdx l.length a)

/-- The consecutive sections of `np.split`, starting at bound `prev`. -/
def npSplitFrom {γ : Type} (l : List γ) (prev : Int) : List Int → List (List γ)
  | [] => [pySlice l prev l.length]
  | b :: bs => pySlice l prev b :: npSplitFrom l b bs

/-- `np.split(arr, bounds)`:
`[arr[0:b1], arr[b1:b2], ..., arr[bm:]]`. -/
def npSplit {γ : Type} (l : List γ) (bs : List Int) : List (List γ) :=
  npSplitFrom l 0 bs

/-- `np.where(Y == c)[0]`: the positions of the samples of class `c`, in
increasing order. -/
def posOf (Y : List Nat) (c : Nat) : List Nat :=
  (List.range Y.length).filter (fun i => Y[i]? == some c)

/-- The generator interface `lda` uses: one Dirichlet matrix draw
`rng.dirichlet(alphas, size)` (`size` rows of `len(alphas)` nonnegative
proportions each) and an in-place shuffle. -/
structure LdaRng where
  dirichlet : List ℚ → Nat → List (List ℚ)
  shuffle : List Nat → List Nat

/-- The body of one class iteration of `lda`: shuffle the class's sample
positions, split them at the rounded cumulative proportions
(`np.round(np.cumsum(proportions[c]) * len(idx_c)).astype(int)[:-1]`), and
append chunk `i` to client `i`'s list
(`[distribution[i] + d.tolist() for i, d in enumerate(dists_c)]`). -/
def ldaStep (Y : List Nat) (rng : LdaRng) (proportions : List (List ℚ))
    (distribution : List (List Nat)) (c : Nat) : List (List Nat) :=
  let idxc := rng.shuffle (posOf Y c)
  let dists := npSplit idxc
    (((cumsum (proportions.getD c [])).map
      (fun q => npRound (q * (idxc.length : ℚ)))).dropLast)
  (List.range dists.length).map
    (fun i => distribution.getD i [] ++ dists.getD i [])

/-- `lda(Y, nclients, nclasses, rng, alpha)`: one Dirichlet proportion row
per class, then one split-and-append pass per class over an initially empty
per-client distribution. -/
def lda (Y : List Nat) (nclients nclasses : Nat) (rng : LdaRng) (alpha : ℚ) :
    List (List Nat) :=
  (List.range nclasses).foldl
    (ldaStep Y rng (rng.dirichlet (List.replicate nclients alpha) nclasses))
    (List.replicate nclients [])

theorem unravel_flatten_unraveller (T : List Tensor) :
    unravel ((T.map Tensor.data).flatten) (unraveller T) = some T := by
  induction T with
  | nil => rfl
  | cons t rest ih =>
    simp only [List.map_cons, List.flatten_cons, unraveller, unravel,
      List.take_left, List.drop_left]
    rw [dif_pos t.hsize]
    simp only [unraveller] at ih
    rw [ih]
    simp only [Option.map_some']

/-- C1 (amended): for every non-empty weight tree `T`,
`unravel(ravel(T), unraveller(T))` succeeds and returns exactly `T`:
same length, and at every position the same shape and the same values. -/
theorem ravel_unravel_roundtrip (T : List Tensor) (hT : T ≠ []) :
    ∃ v, ravel T = some v ∧ unravel v (unraveller T) = some T := by
  refine ⟨(T.map Tensor.data).flatten, ?_, unravel_flatten_unraveller T⟩
  cases T with
  | nil => exact absurd rfl hT
  | cons t rest => rfl

/-- C1 counterexample: on the empty weight tree the pipeline does not return
a length-0 tree; `ravel([])` is `np.concatenate([])`, which raises
`ValueError`, modelled as `none`. -/
theorem ravel_empty_raises : ravel [] = none := rfl

/-- Witness for `ravel_unravel_roundtrip` at the concrete one-tensor tree
`[⟨[2], [5, 7]⟩]`. -/
theorem ravel_unravel_roundtrip_witness :
    ([(⟨[2], [5, 7], rfl⟩ : Tensor)] ≠ ([] : List Tensor)) ∧
    ∃ v, ravel [(⟨[2], [5, 7], rfl⟩ : Tensor)] = some v ∧
      unravel v (unraveller [(⟨[2], [5, 7], rfl⟩ : Tensor)]) =
        some [(⟨[2], [5, 7], rfl⟩ : Tensor)] :=
  ⟨by decide, ravel_unravel_roundtrip [⟨[2], [5, 7], rfl⟩] (by decide)⟩

/-- C5 counterexample: a vector longer than the skeleton's total length is
accepted silently.  With `v = [1, 2, 3]` and skeleton `[([2], 2)]` the sums
disagree (2 vs 3), yet `unravel` returns a tree built from the prefix instead
of raising. -/
theorem unravel_too_long_silent :
    skelLen [([2], 2)] ≠ ([(1 : ℚ), 2, 3]).length ∧
    (unravel [(1 : ℚ), 2, 3] [([2], 2)]).isSome = true := by
  decide

/-- C5 (amended): for a well-formed skeleton (every recorded flat length
equals the product of its recorded shape, as `unraveller` produces),
`unravel` raises exactly when the skeleton's total length exceeds the
vector's length; when the vector is at least as long (including strictly
longer), it silently returns a reconstructed tree from the prefix. -/
theorem unravel_none_iff_too_short (v : List ℚ)
    (skel : List (List Nat × Nat))
    (hwf : ∀ p ∈ skel, p.2 = prodNat p.1) :
    unravel v skel = none ↔ v.length < skelLen skel := by
  induction skel generalizing v with
  | nil =>
    simp [unravel, skelLen]
  | cons p rest ih =>
    obtain ⟨shape, len⟩ := p
    have hlen : len = prodNat shape := hwf (shape, len) (List.mem_cons_self _ _)
    have hrest : ∀ q ∈ rest, q.2 = prodNat q.1 :=
      fun q hq => hwf q (List.mem_cons_of_mem _ hq)
    simp only [unravel, skelLen, List.map_cons, List.sum_cons]
    by_cases hv : v.length < len
    · have hne : (v.take len).length ≠ prodNat shape := by
        rw [List.length_take, ← hlen]
        omega
      simp only [hne, dif_neg, not_false_iff, eq_self_iff_true, true_iff]
      omega
    · push_neg at hv
      have heq : (v.take len).length = prodNat shape := by
        rw [List.length_take, ← hlen]
        omega
      simp only [heq, dif_pos]
      rw [Option.map_eq_none', ih (v.drop len) hrest, List.length_drop, skelLen]
      omega

/-- Witness for `unravel_none_iff_too_short`: with a well-formed skeleton of
total length 3 and a vector of length 2, `unravel` raises. -/
theorem unravel_none_iff_too_short_witness :
    (∀ p ∈ [(([3] : List Nat), 3)], p.2 = prodNat p.1) ∧
    (unravel [(1 : ℚ), 2] [([3], 3)] = none ↔
      ([(1 : ℚ), 2]).length < skelLen [([3], 3)]) :=
  ⟨by decide, unravel_none_iff_too_short [1, 2] [([3], 3)] (by decide)⟩

theorem Tensor.ext_shape_data : ∀ {a b : Tensor},
    a.shape = b.shape → a.data = b.data → a = b := by
  intro a b h1 h2
  cases a
  cases b
  simp only at h1 h2
  subst h1
  subst h2
  rfl

theorem length_indices (s : List Nat) : (indices s).length = prodNat s := by
  have h := (tensorOfFn s (fun _ => 0)).hsize
  simpa [tensorOfFn] using h

theorem getElem?_flatMap_uniform {α β : Type} (f : α → List β) (L : Nat) :
    ∀ (l : List α) (i j : Nat) (a : α), (∀ x ∈ l, (f x).length = L) →
      j < L → l[i]? = some a → (l.flatMap f)[i * L + j]? = (f a)[j]? := by
  intro l
  induction l with
  | nil =>
    intro i j a _ _ hi
    simp at hi
  | cons x xs ih =>
    intro i j a hL hj hi
    rw [List.flatMap_cons]
    match i with
    | 0 =>
      simp only [List.getElem?_cons_zero, Option.some_inj] at hi
      subst hi
      rw [Nat.zero_mul, Nat.zero_add]
      exact List.getElem?_append_left (by rw [hL x (List.mem_cons_self _ _)]; exact hj)
    | i + 1 =>
      simp only [List.getElem?_cons_succ] at hi
      have hlen : (f x).length = L := hL x (List.mem_cons_self _ _)
      have hge : (f x).length ≤ (i + 1) * L + j := by
        rw [hlen]
        calc L ≤ (i + 1) * L := Nat.le_mul_of_pos_left L (Nat.succ_pos i)
        _ ≤ (i + 1) * L + j := Nat.le_add_right _ _
      rw [List.getElem?_append_right hge, hlen]
      have harith : (i + 1) * L + j - L = i * L + j := by
        have : (i + 1) * L = i * L + L := by ring
        omega
      rw [harith]
      exact ih i j a (fun y hy => hL y (List.mem_cons_of_mem _ hy)) hj hi

theorem offsetOf_lt : ∀ (ix s : List Nat), inBounds ix s = true →
    offsetOf ix s < prodNat s := by
  intro ix
  induction ix with
  | nil =>
    intro s h
    cases s with
    | nil => exact Nat.zero_lt_one
    | cons d ds => simp [inBounds] at h
  | cons i is ih =>
    intro s h
    cases s with
    | nil => simp [inBounds] at h
    | cons d ds =>
      simp only [inBounds, Bool.and_eq_true, decide_eq_true_eq] at h
      obtain ⟨hid, hrest⟩ := h
      have h1 : offsetOf is ds < prodNat ds := ih ds hrest
      simp only [offsetOf, prodNat]
      calc i * prodNat ds + offsetOf is ds
          < i * prodNat ds + prodNat ds := Nat.add_lt_add_left h1 _
        _ = (i + 1) * prodNat ds := by ring
        _ ≤ d * prodNat ds := Nat.mul_le_mul_right _ (Nat.succ_le_of_lt hid)

theorem getElem?_indices : ∀ (s ix : List Nat), inBounds ix s = true →
    (indices s)[offsetOf ix s]? = some ix := by
  intro s
  induction s with
  | nil =>
    intro ix h
    cases ix with
    | nil => rfl
    | cons i is => simp [inBounds] at h
  | cons d ds ih =>
    intro ix h
    cases ix with
    | nil => simp [inBounds] at h
    | cons i is =>
      simp only [inBounds, Bool.and_eq_true, decide_eq_true_eq] at h
      obtain ⟨hid, hrest⟩ := h
      simp only [indices, offsetOf]
      have hL : ∀ x ∈ List.range d,
          ((indices ds).map (fun ix => x :: ix)).length = prodNat ds := by
        intro x _
        rw [List.length_map, length_indices]
      have hj : offsetOf is ds < prodNat ds := offsetOf_lt is ds hrest
      have hi : (List.range d)[i]? = some i := List.getElem?_range hid
      rw [getElem?_flatMap_uniform _ (prodNat ds) (List.range d) i
        (offsetOf is ds) i hL hj hi]
      rw [List.getElem?_map, ih is hrest]
      rfl

theorem get_tensorOfFn (s : List Nat) (f : List Nat → ℚ) (ix : List Nat)
    (h : inBounds ix s = true) : (tensorOfFn s f).get ix = f ix := by
  unfold Tensor.get tensorOfFn
  simp only
  rw [List.getD_eq_getElem?_getD, List.getElem?_map, getElem?_indices s ix h]
  rfl

theorem shapeLE_length : ∀ {a b : List Nat}, shapeLE a b = true →
    a.length = b.length := by
  intro a
  induction a with
  | nil =>
    intro b h
    cases b with
    | nil => rfl
    | cons x xs => simp [shapeLE] at h
  | cons x xs ih =>
    intro b h
    cases b with
    | nil => simp [shapeLE] at h
    | cons y ys =>
      simp only [shapeLE, Bool.and_eq_true] at h
      simp [ih h.2]

theorem sliceShape_of_shapeLE : ∀ {a b : List Nat}, shapeLE a b = true →
    sliceShape a b = a := by
  intro a
  induction a with
  | nil =>
    intro b h
    cases b with
    | nil => rfl
    | cons x xs => simp [shapeLE] at h
  | cons x xs ih =>
    intro b h
    cases b with
    | nil => simp [shapeLE] at h
    | cons y ys =>
      simp only [shapeLE, Bool.and_eq_true, decide_eq_true_eq] at h
      simp [sliceShape, Nat.min_eq_left h.1, ih h.2]

theorem inBounds_of_shapeLE : ∀ {ix a b : List Nat}, inBounds ix a = true →
    shapeLE a b = true → inBounds ix b = true := by
  intro ix
  induction ix with
  | nil =>
    intro a b h1 h2
    cases a with
    | nil =>
      cases b with
      | nil => rfl
      | cons y ys => simp [shapeLE] at h2
    | cons x xs => simp [inBounds] at h1
  | cons i is ih =>
    intro a b h1 h2
    cases a with
    | nil => simp [inBounds] at h1
    | cons x xs =>
      cases b with
      | nil => simp [shapeLE] at h2
      | cons y ys =>
        simp only [inBounds, shapeLE, Bool.and_eq_true, decide_eq_true_eq]
          at h1 h2 ⊢
        exact ⟨Nat.lt_of_lt_of_le h1.1 h2.1, ih h1.2 h2.2⟩

theorem keyMem_eq_isSome (k : String) (s : Skel) :
    keyMem k s = (skelFind k s).isSome := by
  induction s with
  | nil => rfl
  | cons p rest ih =>
    simp only [keyMem, skelFind, List.any_cons, List.find?_cons]
    cases h : (p.1 == k) with
    | true => simp [h]
    | false =>
      simp only [h, cond_false, Bool.false_or]
      exact ih

/-- C3: `partition` returns one tensor per name present in both skeletons,
in the local skeleton's order (names absent from the global skeleton are
dropped), and each returned tensor is the global tree's tensor at that
name's global index restricted to the leading sub-block
`tensor[0:d0, 0:d1, ...]` selected by the local skeleton's shape: the
result's shape is that (clamped) sub-block shape, and at every in-bounds
multi-index the result holds the global tensor's value.  The data model's
skeleton validity is assumed: each shared name's global index addresses the
global tree and its local shape has no more axes than the addressed
tensor. -/
theorem partition_spec (G : List Tensor) (Sg Sl : Skel)
    (h : ∀ p ∈ Sl, ∀ ge, skelFind p.1 Sg = some ge →
      ∃ g, G[ge.index]? = some g ∧ p.2.shape.length ≤ g.shape.length) :
    ∃ L, partition G Sg Sl = some L ∧
      L.length = (Sl.filter (fun p => keyMem p.1 Sg)).length ∧
      ∀ (j : Nat) (p : String × SkelEntry),
        (Sl.filter (fun p => keyMem p.1 Sg))[j]? = some p →
        ∃ ge g t, skelFind p.1 Sg = some ge ∧ G[ge.index]? = some g ∧
          L[j]? = some t ∧ t.shape = sliceShape p.2.shape g.shape ∧
          ∀ ix, inBounds ix t.shape = true → t.get ix = g.get ix := by
  induction Sl with
  | nil =>
    refine ⟨[], rfl, rfl, ?_⟩
    intro j p hp
    simp at hp
  | cons q rest ih =>
    obtain ⟨k, e⟩ := q
    obtain ⟨L', hL', hlen', hpt'⟩ :=
      ih (fun p hp => h p (List.mem_cons_of_mem _ hp))
    cases hfind : skelFind k Sg with
    | none =>
      have hkm : keyMem k Sg = false := by
        rw [keyMem_eq_isSome, hfind]
        rfl
      refine ⟨L', ?_, ?_, ?_⟩
      · simp only [partition, hfind]
        exact hL'
      · rw [List.filter_cons, if_neg (by simp [hkm])]
        exact hlen'
      · intro j p hp
        rw [List.filter_cons, if_neg (by simp [hkm])] at hp
        exact hpt' j p hp
    | some ge =>
      obtain ⟨g, hG, hrank⟩ := h (k, e) (List.mem_cons_self _ _) ge hfind
      have hkm : keyMem k Sg = true := by
        rw [keyMem_eq_isSome, hfind]
        rfl
      have hslice : npSlice g e.shape = some (sliceT g e.shape) := by
        simp [npSlice, hrank]
      refine ⟨sliceT g e.shape :: L', ?_, ?_, ?_⟩
      · simp [partition, hfind, hG, hslice, hL']
      · rw [List.filter_cons, if_pos (by simp [hkm])]
        simp [hlen']
      · intro j p hp
        rw [List.filter_cons, if_pos (by simp [hkm])] at hp
        match j with
        | 0 =>
          simp only [List.getElem?_cons_zero, Option.some_inj] at hp
          subst hp
          refine ⟨ge, g, sliceT g e.shape, hfind, hG,
            List.getElem?_cons_zero, rfl, ?_⟩
          intro ix hix
          exact get_tensorOfFn _ _ ix hix
        | j + 1 =>
          simp only [List.getElem?_cons_succ] at hp ⊢
          exact hpt' j p hp

/-- Witness for `partition_spec`: a concrete global tree with one 2 by 2
tensor, sliced down to a 1 by 2 local skeleton shape. -/
theorem partition_spec_witness :
    (∀ p ∈ [("a", (⟨0, [1, 2]⟩ : SkelEntry))], ∀ ge,
      skelFind p.1 [("a", (⟨0, [2, 2]⟩ : SkelEntry))] = some ge →
      ∃ g, [(⟨[2, 2], [1, 2, 3, 4], by decide⟩ : Tensor)][ge.index]? = some g ∧
        p.2.shape.length ≤ g.shape.length) ∧
    ∃ L, partition [(⟨[2, 2], [1, 2, 3, 4], by decide⟩ : Tensor)]
        [("a", (⟨0, [2, 2]⟩ : SkelEntry))] [("a", (⟨0, [1, 2]⟩ : SkelEntry))] =
        some L ∧
      L.length = (([("a", (⟨0, [1, 2]⟩ : SkelEntry))]).filter
        (fun p => keyMem p.1 [("a", (⟨0, [2, 2]⟩ : SkelEntry))])).length ∧
      ∀ (j : Nat) (p : String × SkelEntry),
        (([("a", (⟨0, [1, 2]⟩ : SkelEntry))]).filter
          (fun p => keyMem p.1 [("a", (⟨0, [2, 2]⟩ : SkelEntry))]))[j]? =
          some p →
        ∃ ge g t, skelFind p.1 [("a", (⟨0, [2, 2]⟩ : SkelEntry))] = some ge ∧
          [(⟨[2, 2], [1, 2, 3, 4], by decide⟩ : Tensor)][ge.index]? = some g ∧
          L[j]? = some t ∧ t.shape = sliceShape p.2.shape g.shape ∧
          ∀ ix, inBounds ix t.shape = true → t.get ix = g.get ix :=
  ⟨by decide, partition_spec _ _ _ (by decide)⟩

theorem seqOption_zipWith_tBinOp (f : ℚ → ℚ → ℚ) : ∀ (wa wb : List Tensor),
    (List.zipWith (fun a b => bcCompat a.shape b.shape) wa wb).all
      (fun x => x) = true →
    ∃ r, seqOption (List.zipWith (tBinOp f) wa wb) = some r ∧
      r.length = min wa.length wb.length := by
  intro wa
  induction wa with
  | nil =>
    intro wb _
    exact ⟨[], rfl, by simp⟩
  | cons a xs ih =>
    intro wb h
    cases wb with
    | nil => exact ⟨[], rfl, by simp⟩
    | cons b ys =>
      simp only [List.zipWith_cons_cons, List.all_cons, Bool.and_eq_true] at h
      obtain ⟨h0, hrest⟩ := h
      obtain ⟨r', hr', hlen⟩ := ih ys hrest
      refine ⟨tensorOfFn (bcShape a.shape b.shape)
        (fun ix => f (a.get (bcIndex a.shape ix))
          (b.get (bcIndex b.shape ix))) :: r', ?_, ?_⟩
      · simp only [List.zipWith_cons_cons, tBinOp, h0, if_true, seqOption]
        rw [hr']
        rfl
      · simp only [List.length_cons, hlen]
        omega

/-- C4 (amended): `sub`, `mul` and `div` never check tree lengths — `zip`
silently truncates to the shorter tree — and per-position they follow numpy
broadcasting: whenever every same-position pair of tensors (up to the
shorter length) has broadcast-compatible shapes, each operation returns a
tree of length `min(len(a), len(b))`, raising a shape-mismatch error only
when some zipped pair is broadcast-incompatible. -/
theorem sub_mul_div_compat_spec (wa wb : List Tensor)
    (h : (List.zipWith (fun a b => bcCompat a.shape b.shape) wa wb).all
      (fun x => x) = true) :
    (∃ r, sub wa wb = some r ∧ r.length = min wa.length wb.length) ∧
    (∃ r, mul wa wb = some r ∧ r.length = min wa.length wb.length) ∧
    (∃ r, div wa wb = some r ∧ r.length = min wa.length wb.length) :=
  ⟨seqOption_zipWith_tBinOp _ wa wb h, seqOption_zipWith_tBinOp _ wa wb h,
    seqOption_zipWith_tBinOp _ wa wb h⟩

/-- C4 counterexample: trees that differ in length and whose position-0
tensors have different (broadcastable) shapes; `sub`, `mul` and `div` all
return a tree instead of raising a shape-mismatch error. -/
theorem sub_mul_div_mismatch_no_error :
    ([(⟨[2, 2], [1, 2, 3, 4], by decide⟩ : Tensor),
        ⟨[1], [5], by decide⟩]).length ≠
      ([(⟨[2], [10, 20], by decide⟩ : Tensor)]).length ∧
    (⟨[2, 2], [1, 2, 3, 4], by decide⟩ : Tensor).shape ≠
      (⟨[2], [10, 20], by decide⟩ : Tensor).shape ∧
    (sub [⟨[2, 2], [1, 2, 3, 4], by decide⟩, ⟨[1], [5], by decide⟩]
      [⟨[2], [10, 20], by decide⟩]).isSome = true ∧
    (mul [⟨[2, 2], [1, 2, 3, 4], by decide⟩, ⟨[1], [5], by decide⟩]
      [⟨[2], [10, 20], by decide⟩]).isSome = true ∧
    (div [⟨[2, 2], [1, 2, 3, 4], by decide⟩, ⟨[1], [5], by decide⟩]
      [⟨[2], [10, 20], by decide⟩]).isSome = true := by
  decide

/-- Witness for `sub_mul_div_compat_spec` on a concrete broadcastable pair. -/
theorem sub_mul_div_compat_spec_witness :
    ((List.zipWith (fun a b => bcCompat a.shape b.shape)
        [(⟨[2], [1, 2], by decide⟩ : Tensor)]
        [(⟨[1], [10], by decide⟩ : Tensor)]).all (fun x => x) = true) ∧
    ((∃ r, sub [(⟨[2], [1, 2], by decide⟩ : Tensor)]
        [(⟨[1], [10], by decide⟩ : Tensor)] = some r ∧
        r.length = min 1 1) ∧
      (∃ r, mul [(⟨[2], [1, 2], by decide⟩ : Tensor)]
        [(⟨[1], [10], by decide⟩ : Tensor)] = some r ∧
        r.length = min 1 1) ∧
      (∃ r, div [(⟨[2], [1, 2], by decide⟩ : Tensor)]
        [(⟨[1], [10], by decide⟩ : Tensor)] = some r ∧
        r.length = min 1 1)) :=
  ⟨by decide, sub_mul_div_compat_spec _ _ (by decide)⟩

theorem sliceList_nil : ∀ (ns : List String) (gs : List Tensor),
    sliceList ns gs [] = [] := by
  intro ns gs
  cases ns with
  | nil => rfl
  | cons n ns =>
    cases gs with
    | nil => rfl
    | cons g gs => rfl

theorem skelFind_cons_self (n : String) (e : SkelEntry) (rest : Skel) :
    skelFind n ((n, e) :: rest) = some e := by
  simp [skelFind, List.find?_cons]

theorem skelFind_cons_ne (k n : String) (e : SkelEntry) (rest : Skel)
    (h : k ≠ n) : skelFind n ((k, e) :: rest) = skelFind n rest := by
  simp only [skelFind, List.find?_cons]
  rw [show ((k, e).1 == n) = false from beq_eq_false_iff_ne.mpr h]

theorem skelFind_eq_none_of_not_mem (n : String) (s : Skel)
    (h : n ∉ s.map Prod.fst) : skelFind n s = none := by
  rw [skelFind, List.find?_eq_none.mpr, Option.map_none']
  intro p hp hbeq
  exact h (List.mem_map.mpr ⟨p, hp, (eq_of_beq hbeq)⟩)

theorem getElem?_append_self {α : Type} (A l : List α) :
    (A ++ l)[A.length]? = l[0]? := by
  rw [List.getElem?_append_right (Nat.le_refl _), Nat.sub_self]

theorem set_append_self {α : Type} (A l : List α) (x t : α) :
    (A ++ x :: l).set A.length t = A ++ t :: l := by
  rw [List.set_append, if_neg (Nat.lt_irrefl _), Nat.sub_self]
  rfl

theorem pyInsert_append_self (A l : List Tensor) (x : Tensor) :
    pyInsert (A ++ l) A.length x = A ++ x :: l := by
  unfold pyInsert
  rw [List.take_left, List.drop_left]

theorem skelFind_mkSkelFrom : ∀ (ns : List String) (gs : List Tensor)
    (m i : Nat) (k : String) (g : Tensor), ns.Nodup →
    ns[i]? = some k → gs[i]? = some g →
    skelFind k (mkSkelFrom m ns gs) = some ⟨m + i, g.shape⟩ := by
  intro ns
  induction ns with
  | nil =>
    intro gs m i k g _ hk _
    simp at hk
  | cons n ns ih =>
    intro gs m i k g hnodup hk hg
    cases gs with
    | nil => simp at hg
    | cons g0 gs =>
      match i with
      | 0 =>
        simp only [List.getElem?_cons_zero, Option.some_inj] at hk hg
        subst hk
        subst hg
        rw [Nat.add_zero]
        exact skelFind_cons_self n _ _
      | i + 1 =>
        simp only [List.getElem?_cons_succ] at hk hg
        have hkmem : k ∈ ns := List.getElem?_mem hk
        have hne : n ≠ k := by
          intro h
          subst h
          exact (List.nodup_cons.mp hnodup).1 hkmem
        rw [show mkSkelFrom m (n :: ns) (g0 :: gs) =
          (n, ⟨m, g0.shape⟩) :: mkSkelFrom (m + 1) ns gs from rfl]
        rw [skelFind_cons_ne n k _ _ hne,
          ih gs (m + 1) i k g (List.nodup_cons.mp hnodup).2 hk hg]
        congr 2
        omega

theorem partition_eq_sliceList (G : List Tensor) (Sg : Skel) :
    ∀ (ns : List String) (gs : List Tensor) (Srem : Skel),
    ns.length = gs.length → ns.Nodup →
    (Srem.map Prod.fst).Sublist ns →
    (∀ (i : Nat) (k : String), ns[i]? = some k → ∃ (g : Tensor) (ge : SkelEntry),
      gs[i]? = some g ∧ skelFind k Sg = some ge ∧ G[ge.index]? = some g ∧
      ge.shape = g.shape) →
    (∀ p ∈ Srem, ∀ (i : Nat), ns[i]? = some p.1 →
      ∃ (g : Tensor), gs[i]? = some g ∧ shapeLE p.2.shape g.shape = true) →
    partition G Sg Srem = some (sliceList ns gs Srem) := by
  intro ns
  induction ns with
  | nil =>
    intro gs Srem _ _ hsub _ _
    have hS : Srem = [] := List.map_eq_nil.mp (List.sublist_nil.mp hsub)
    subst hS
    rfl
  | cons n ns ih =>
    intro gs Srem hlen hnodup hsub hfind hshape
    cases gs with
    | nil => simp at hlen
    | cons g gs =>
      have hfind' : ∀ (i : Nat) (k : String), ns[i]? = some k →
          ∃ (g1 : Tensor) (ge : SkelEntry), gs[i]? = some g1 ∧
            skelFind k Sg = some ge ∧ G[ge.index]? = some g1 ∧
            ge.shape = g1.shape := by
        intro i k hk
        obtain ⟨g1, ge1, hg1, hge1, hG1, hsh1⟩ :=
          hfind (i + 1) k (by rw [List.getElem?_cons_succ]; exact hk)
        rw [List.getElem?_cons_succ] at hg1
        exact ⟨g1, ge1, hg1, hge1, hG1, hsh1⟩
      have hshape' : ∀ S2 : Skel, (∀ p ∈ S2, p ∈ Srem) →
          ∀ p ∈ S2, ∀ (i : Nat), ns[i]? = some p.1 →
          ∃ (g1 : Tensor), gs[i]? = some g1 ∧
            shapeLE p.2.shape g1.shape = true := by
        intro S2 hS2 p hp i hi
        obtain ⟨g1, hg1, hsl1⟩ := hshape p (hS2 p hp) (i + 1)
          (by rw [List.getElem?_cons_succ]; exact hi)
        rw [List.getElem?_cons_succ] at hg1
        exact ⟨g1, hg1, hsl1⟩
      cases Srem with
      | nil => rw [sliceList_nil]; rfl
      | cons q rest =>
        obtain ⟨k, e⟩ := q
        by_cases hnk : n = k
        · subst hnk
          have hsub' : (rest.map Prod.fst).Sublist ns := by
            cases hsub with
            | cons _ h =>
              exact absurd (h.subset (List.mem_cons_self _ _))
                (List.nodup_cons.mp hnodup).1
            | cons₂ _ h => exact h
          obtain ⟨g0, ge, hg0, hge, hG, hgshape⟩ :=
            hfind 0 n (by simp)
          simp only [List.getElem?_cons_zero, Option.some_inj] at hg0
          subst hg0
          obtain ⟨g1, hg1, hsle⟩ := hshape (n, e) (List.mem_cons_self _ _) 0
            (by simp)
          simp only [List.getElem?_cons_zero, Option.some_inj] at hg1
          subst hg1
          have hslice : npSlice g e.shape = some (sliceT g e.shape) := by
            simp [npSlice, shapeLE_length hsle]
          have hrest : partition G Sg rest = some (sliceList ns gs rest) :=
            ih gs rest (by simpa using hlen) (List.nodup_cons.mp hnodup).2
              hsub' hfind'
              (hshape' rest (fun p hp => List.mem_cons_of_mem _ hp))
          show partition G Sg ((n, e) :: rest) = _
          rw [show sliceList (n :: ns) (g :: gs) ((n, e) :: rest) =
            sliceT g e.shape :: sliceList ns gs rest by
              simp [sliceList]]
          simp [partition, hge, hG, hslice, hrest]
        · have hsub' : ((k, e) :: rest).map Prod.fst |>.Sublist ns := by
            cases hsub with
            | cons _ h => exact h
            | cons₂ _ h => exact absurd rfl hnk
          rw [show sliceList (n :: ns) (g :: gs) ((k, e) :: rest) =
            sliceList ns gs ((k, e) :: rest) by
              simp [sliceList, beq_eq_false_iff_ne.mpr hnk]]
          exact ih gs ((k, e) :: rest) (by simpa using hlen)
            (List.nodup_cons.mp hnodup).2 hsub' hfind'
            (hshape' ((k, e) :: rest) (fun p hp => hp))

theorem expand_sliceList (Slfull : Skel) :
    ∀ (ns : List String) (gs : List Tensor) (Srem : Skel) (A : List Tensor),
    ns.length = gs.length → ns.Nodup →
    (Srem.map Prod.fst).Sublist ns →
    (∀ n ∈ ns, skelFind n Slfull = skelFind n Srem) →
    (∀ p ∈ Srem, ∀ (i : Nat), ns[i]? = some p.1 →
      ∃ (g : Tensor), gs[i]? = some g ∧ shapeLE p.2.shape g.shape = true) →
    ∃ R, expand (A ++ sliceList ns gs Srem) Slfull
        (mkSkelFrom A.length ns gs) = some (A ++ R) ∧
      R.length = ns.length ∧
      ∀ (i : Nat) (n : String) (g : Tensor), ns[i]? = some n →
        gs[i]? = some g →
        ∃ t, R[i]? = some t ∧ t.shape = g.shape ∧
          (∀ e, skelFind n Srem = some e →
            (∀ ix, inBounds ix e.shape = true → t.get ix = g.get ix) ∧
            (∀ ix, inBounds ix g.shape = true → inBounds ix e.shape = false →
              t.get ix = 0)) ∧
          (skelFind n Srem = none →
            ∀ ix, inBounds ix g.shape = true → t.get ix = 0) := by
  intro ns
  induction ns with
  | nil =>
    intro gs Srem A hlen hnodup hsub hagree hshape
    have hgs : gs = [] := (List.length_eq_zero.mp hlen.symm)
    have hS : Srem = [] := List.map_eq_nil.mp (List.sublist_nil.mp hsub)
    subst hgs
    subst hS
    refine ⟨[], ?_, rfl, ?_⟩
    · show expand (A ++ []) Slfull [] = some (A ++ [])
      rfl
    · intro i n g hn _
      simp at hn
  | cons n ns ih =>
    intro gs Srem A hlen hnodup hsub hagree hshape
    cases gs with
    | nil => simp at hlen
    | cons g gs =>
      have hlen' : ns.length = gs.length := by simpa using hlen
      have hnodup' : ns.Nodup := (List.nodup_cons.mp hnodup).2
      have hnmem : n ∉ ns := (List.nodup_cons.mp hnodup).1
      have hshape' : ∀ S2 : Skel, (∀ p ∈ S2, p ∈ Srem) →
          ∀ p ∈ S2, ∀ (i : Nat), ns[i]? = some p.1 →
          ∃ (g1 : Tensor), gs[i]? = some g1 ∧
            shapeLE p.2.shape g1.shape = true := by
        intro S2 hS2 p hp i hi
        obtain ⟨g1, hg1, hsl1⟩ := hshape p (hS2 p hp) (i + 1)
          (by rw [List.getElem?_cons_succ]; exact hi)
        rw [List.getElem?_cons_succ] at hg1
        exact ⟨g1, hg1, hsl1⟩
      cases Srem with
      | nil =>
        -- the name is absent from the local skeleton: a zero tensor is
        -- inserted at the global index
        have hnone : skelFind n Slfull = none := by
          rw [hagree n (List.mem_cons_self _ _)]
          rfl
        have hkm : keyMem n Slfull = false := by
          rw [keyMem_eq_isSome, hnone]
          rfl
        have hIH := ih gs [] (A ++ [npZeros g.shape]) hlen' hnodup'
          (by simp) (fun n' hn' => hagree n' (List.mem_cons_of_mem _ hn'))
          (by intro p hp; simp at hp)
        obtain ⟨R', hR', hRlen', hRpt'⟩ := hIH
        rw [show (A ++ [npZeros g.shape]).length = A.length + 1 by simp]
          at hR'
        refine ⟨npZeros g.shape :: R', ?_, by simp [hRlen'], ?_⟩
        · show expand (A ++ sliceList (n :: ns) (g :: gs) []) Slfull
            ((n, ⟨A.length, g.shape⟩) :: mkSkelFrom (A.length + 1) ns gs) =
            some (A ++ npZeros g.shape :: R')
          rw [show sliceList (n :: ns) (g :: gs) [] = [] from rfl]
          simp only [expand, hkm, Bool.false_eq_true, if_false]
          rw [pyInsert_append_self A [] (npZeros g.shape)]
          rw [show sliceList ns gs [] = [] from sliceList_nil ns gs,
            List.append_nil] at hR'
          rw [hR']
          simp
        · intro i n0 g0 hn0 hg0
          match i with
          | 0 =>
            simp only [List.getElem?_cons_zero, Option.some_inj] at hn0 hg0
            subst hn0
            subst hg0
            refine ⟨npZeros g.shape, by simp, rfl, ?_, ?_⟩
            · intro e he
              simp [skelFind] at he
            · intro _ ix hix
              exact get_tensorOfFn _ _ ix hix
          | i + 1 =>
            simp only [List.getElem?_cons_succ] at hn0 hg0
            obtain ⟨t, ht, hts, hsome, hnone0⟩ := hRpt' i n0 g0 hn0 hg0
            exact ⟨t, by simpa using ht, hts, hsome, hnone0⟩
      | cons q rest =>
        obtain ⟨k, e⟩ := q
        by_cases hnk : n = k
        · -- the name is shared: the partitioned slice at the global index is
          -- zero-padded back up to the global shape in place
          subst hnk
          have hsub' : (rest.map Prod.fst).Sublist ns := by
            cases hsub with
            | cons _ h =>
              exact absurd (h.subset (List.mem_cons_self _ _)) hnmem
            | cons₂ _ h => exact h
          obtain ⟨g1, hg1, hsle⟩ := hshape (n, e) (List.mem_cons_self _ _) 0
            (by simp)
          simp only [List.getElem?_cons_zero, Option.some_inj] at hg1
          subst hg1
          have hfound : skelFind n ((n, e) :: rest) = some e :=
            skelFind_cons_self n e rest
          have hkm : keyMem n Slfull = true := by
            rw [keyMem_eq_isSome, hagree n (List.mem_cons_self _ _), hfound]
            rfl
          have hss : (sliceT g e.shape).shape = e.shape := by
            show sliceShape e.shape g.shape = e.shape
            exact sliceShape_of_shapeLE hsle
          have hpad : npPad (sliceT g e.shape) g.shape =
              some (padT (sliceT g e.shape) g.shape) := by
            rw [npPad, hss]
            rw [if_pos]
            · rw [shapeLE_length hsle, List.take_length]
            · constructor
              · rw [shapeLE_length hsle]
              · rw [shapeLE_length hsle, List.take_length]
                exact hsle
          have hagree' : ∀ n' ∈ ns, skelFind n' Slfull = skelFind n' rest := by
            intro n' hn'
            have hne : n ≠ n' := fun h => hnmem (h ▸ hn')
            rw [hagree n' (List.mem_cons_of_mem _ hn'),
              skelFind_cons_ne n n' e rest hne]
          have hIH := ih gs rest (A ++ [padT (sliceT g e.shape) g.shape])
            hlen' hnodup' hsub' hagree'
            (hshape' rest (fun p hp => List.mem_cons_of_mem _ hp))
          obtain ⟨R', hR', hRlen', hRpt'⟩ := hIH
          rw [show (A ++ [padT (sliceT g e.shape) g.shape]).length =
            A.length + 1 by simp] at hR'
          refine ⟨padT (sliceT g e.shape) g.shape :: R', ?_,
            by simp [hRlen'], ?_⟩
          · show expand (A ++ sliceList (n :: ns) (g :: gs) ((n, e) :: rest))
              Slfull
              ((n, ⟨A.length, g.shape⟩) :: mkSkelFrom (A.length + 1) ns gs) =
              some (A ++ padT (sliceT g e.shape) g.shape :: R')
            rw [show sliceList (n :: ns) (g :: gs) ((n, e) :: rest) =
              sliceT g e.shape :: sliceList ns gs rest by simp [sliceList]]
            simp only [expand, hkm, if_true]
            rw [getElem?_append_self A (sliceT g e.shape :: sliceList ns gs
              rest)]
            simp only [List.getElem?_cons_zero, Option.some_bind,
              Option.bind_eq_bind]
            rw [hpad]
            simp only [Option.some_bind]
            rw [set_append_self A (sliceList ns gs rest) (sliceT g e.shape)
              (padT (sliceT g e.shape) g.shape)]
            rw [show (A ++ padT (sliceT g e.shape) g.shape ::
              sliceList ns gs rest : List Tensor) =
              (A ++ [padT (sliceT g e.shape) g.shape]) ++
                sliceList ns gs rest by simp]
            rw [hR']
            simp
          · intro i n0 g0 hn0 hg0
            match i with
            | 0 =>
              simp only [List.getElem?_cons_zero, Option.some_inj] at hn0 hg0
              subst hn0
              subst hg0
              refine ⟨padT (sliceT g e.shape) g.shape, by simp, rfl, ?_, ?_⟩
              · intro e' he'
                rw [hfound, Option.some_inj] at he'
                subst he'
                constructor
                · intro ix hix
                  have hixg : inBounds ix g.shape = true :=
                    inBounds_of_shapeLE hix hsle
                  rw [padT, get_tensorOfFn _ _ ix hixg, hss, if_pos hix]
                  show (tensorOfFn (sliceShape e.shape g.shape) g.get).get ix
                    = g.get ix
                  rw [sliceShape_of_shapeLE hsle]
                  exact get_tensorOfFn _ _ ix hix
                · intro ix hixg hixe
                  rw [padT, get_tensorOfFn _ _ ix hixg, hss, if_neg
                    (by rw [hixe]; exact Bool.false_ne_true)]
              · intro hcontra
                rw [hfound] at hcontra
                exact absurd hcontra (Option.some_ne_none e)
            | i + 1 =>
              simp only [List.getElem?_cons_succ] at hn0 hg0
              obtain ⟨t, ht, hts, hsome, hnone0⟩ := hRpt' i n0 g0 hn0 hg0
              have hne : n ≠ n0 := fun h => hnmem (h ▸ List.getElem?_mem hn0)
              refine ⟨t, by simpa using ht, hts, ?_, ?_⟩
              · intro e' he'
                rw [skelFind_cons_ne n n0 e rest hne] at he'
                exact hsome e' he'
              · intro hno
                rw [skelFind_cons_ne n n0 e rest hne] at hno
                exact hnone0 hno
        · -- the head name is absent from the local skeleton
          have hsub' : ((k, e) :: rest).map Prod.fst |>.Sublist ns := by
            cases hsub with
            | cons _ h => exact h
            | cons₂ _ h => exact absurd rfl hnk
          have hnfind : skelFind n ((k, e) :: rest) = none := by
            apply skelFind_eq_none_of_not_mem
            intro hmem
            simp only [List.map_cons] at hmem
            cases List.mem_cons.mp hmem with
            | inl h => exact hnk h
            | inr h =>
              have hn2 : n ∈ List.map Prod.fst ((k, e) :: rest) := by
                simp only [List.map_cons]
                exact List.mem_cons_of_mem _ h
              exact hnmem (hsub'.subset hn2)
          have hkm : keyMem n Slfull = false := by
            rw [keyMem_eq_isSome, hagree n (List.mem_cons_self _ _), hnfind]
            rfl
          have hIH := ih gs ((k, e) :: rest) (A ++ [npZeros g.shape])
            hlen' hnodup' hsub'
            (fun n' hn' => hagree n' (List.mem_cons_of_mem _ hn'))
            (hshape' ((k, e) :: rest) (fun p hp => hp))
          obtain ⟨R', hR', hRlen', hRpt'⟩ := hIH
          rw [show (A ++ [npZeros g.shape]).length = A.length + 1 by simp]
            at hR'
          refine ⟨npZeros g.shape :: R', ?_, by simp [hRlen'], ?_⟩
          · show expand (A ++ sliceList (n :: ns) (g :: gs) ((k, e) :: rest))
              Slfull
              ((n, ⟨A.length, g.shape⟩) :: mkSkelFrom (A.length + 1) ns gs) =
              some (A ++ npZeros g.shape :: R')
            rw [show sliceList (n :: ns) (g :: gs) ((k, e) :: rest) =
              sliceList ns gs ((k, e) :: rest) by
                simp [sliceList, beq_eq_false_iff_ne.mpr hnk]]
            simp only [expand, hkm, Bool.false_eq_true, if_false]
            rw [pyInsert_append_self A (sliceList ns gs ((k, e) :: rest))
              (npZeros g.shape)]
            rw [show (A ++ npZeros g.shape :: sliceList ns gs ((k, e) :: rest)
              : List Tensor) =
              (A ++ [npZeros g.shape]) ++ sliceList ns gs ((k, e) :: rest)
              by simp]
            rw [hR']
            simp
          · intro i n0 g0 hn0 hg0
            match i with
            | 0 =>
              simp only [List.getElem?_cons_zero, Option.some_inj] at hn0 hg0
              subst hn0
              subst hg0
              refine ⟨npZeros g.shape, by simp, rfl, ?_, ?_⟩
              · intro e' he'
                rw [hnfind] at he'
                exact absurd he'.symm (Option.some_ne_none e')
              · intro _ ix hix
                exact get_tensorOfFn _ _ ix hix
            | i + 1 =>
              simp only [List.getElem?_cons_succ] at hn0 hg0
              obtain ⟨t, ht, hts, hsome, hnone0⟩ := hRpt' i n0 g0 hn0 hg0
              exact ⟨t, by simpa using ht, hts, hsome, hnone0⟩

/-- C2: for a global tree `G` whose named skeleton is `Sg = skeleton names G`
(distinct names, one per tensor, indices enumerating positions) and every
local skeleton `Sl` over a subset of the global names in the same relative
order whose shapes are entrywise `≤` (same rank) the corresponding global
shapes, `expand(partition(G, Sg, Sl), Sl, Sg)` succeeds and yields a tree
whose length and per-position shapes match `Sg` exactly; for each name
shared with `Sl` the tensor agrees with `G`'s tensor on the leading
sub-block of `Sl`'s shape for that name and is zero at every in-bounds
multi-index outside that sub-block, and for each name absent from `Sl` the
tensor at its global index is all zeros. -/
theorem partition_expand_roundtrip (names : List String) (G : List Tensor)
    (Sl : Skel) (hlen : names.length = G.length) (hnodup : names.Nodup)
    (hsub : (Sl.map Prod.fst).Sublist names)
    (hshape : ∀ p ∈ Sl, ∀ ge, skelFind p.1 (skeleton names G) = some ge →
      shapeLE p.2.shape ge.shape = true) :
    ∃ P E, partition G (skeleton names G) Sl = some P ∧
      expand P Sl (skeleton names G) = some E ∧
      E.length = G.length ∧
      ∀ (i : Nat) (n : String) (g : Tensor), names[i]? = some n →
        G[i]? = some g →
        ∃ t, E[i]? = some t ∧ t.shape = g.shape ∧
          (∀ e, skelFind n Sl = some e →
            (∀ ix, inBounds ix e.shape = true → t.get ix = g.get ix) ∧
            (∀ ix, inBounds ix g.shape = true → inBounds ix e.shape = false →
              t.get ix = 0)) ∧
          (skelFind n Sl = none →
            ∀ ix, inBounds ix g.shape = true → t.get ix = 0) := by
  have hfind : ∀ (i : Nat) (k : String), names[i]? = some k →
      ∃ (g : Tensor) (ge : SkelEntry), G[i]? = some g ∧
        skelFind k (skeleton names G) = some ge ∧ G[ge.index]? = some g ∧
        ge.shape = g.shape := by
    intro i k hk
    have hi : i < names.length := by
      by_contra hge
      push_neg at hge
      rw [List.getElem?_eq_none hge] at hk
      exact Option.noConfusion hk
    have hiG : i < G.length := hlen ▸ hi
    have hg : G[i]? = some (G.get ⟨i, hiG⟩) := by
      rw [List.getElem?_eq_getElem hiG]
      rfl
    refine ⟨G.get ⟨i, hiG⟩, ⟨i, (G.get ⟨i, hiG⟩).shape⟩, hg, ?_, hg, rfl⟩
    have := skelFind_mkSkelFrom names G 0 i k (G.get ⟨i, hiG⟩) hnodup hk hg
    simpa [skeleton] using this
  have h5 : ∀ p ∈ Sl, ∀ (i : Nat), names[i]? = some p.1 →
      ∃ (g : Tensor), G[i]? = some g ∧ shapeLE p.2.shape g.shape = true := by
    intro p hp i hi
    obtain ⟨g, ge, hg, hge, _, hshapeeq⟩ := hfind i p.1 hi
    have hle := hshape p hp ge hge
    rw [hshapeeq] at hle
    exact ⟨g, hg, hle⟩
  have hpart : partition G (skeleton names G) Sl =
      some (sliceList names G Sl) :=
    partition_eq_sliceList G (skeleton names G) names G Sl hlen hnodup hsub
      hfind h5
  obtain ⟨R, hR, hRlen, hRpt⟩ := expand_sliceList Sl names G Sl [] hlen
    hnodup hsub (fun _ _ => rfl) h5
  refine ⟨sliceList names G Sl, R, hpart, ?_, by rw [hRlen]; exact hlen, ?_⟩
  · have hR2 : expand (sliceList names G Sl) Sl (mkSkelFrom 0 names G) =
        some R := by simpa using hR
    show expand (sliceList names G Sl) Sl (mkSkelFrom 0 names G) = some R
    exact hR2
  · intro i n g hn hg
    exact hRpt i n g hn hg

/-- Witness for `partition_expand_roundtrip`: a two-tensor global tree with
names `a`, `b` and a local skeleton holding only `b` with a smaller shape. -/
theorem partition_expand_roundtrip_witness :
    (["a", "b"].length =
      ([(⟨[2], [3, 4], by decide⟩ : Tensor),
        ⟨[2, 2], [1, 2, 3, 4], by decide⟩]).length) ∧
    (["a", "b"].Nodup) ∧
    ((([("b", (⟨7, [1, 2]⟩ : SkelEntry))]).map Prod.fst).Sublist ["a", "b"]) ∧
    (∀ p ∈ [("b", (⟨7, [1, 2]⟩ : SkelEntry))], ∀ ge,
      skelFind p.1 (skeleton ["a", "b"]
        [(⟨[2], [3, 4], by decide⟩ : Tensor),
          ⟨[2, 2], [1, 2, 3, 4], by decide⟩]) = some ge →
      shapeLE p.2.shape ge.shape = true) ∧
    (∃ P E, partition
        [(⟨[2], [3, 4], by decide⟩ : Tensor),
          ⟨[2, 2], [1, 2, 3, 4], by decide⟩]
        (skeleton ["a", "b"]
          [(⟨[2], [3, 4], by decide⟩ : Tensor),
            ⟨[2, 2], [1, 2, 3, 4], by decide⟩])
        [("b", (⟨7, [1, 2]⟩ : SkelEntry))] = some P ∧
      expand P [("b", (⟨7, [1, 2]⟩ : SkelEntry))]
        (skeleton ["a", "b"]
          [(⟨[2], [3, 4], by decide⟩ : Tensor),
            ⟨[2, 2], [1, 2, 3, 4], by decide⟩]) = some E ∧
      E.length = ([(⟨[2], [3, 4], by decide⟩ : Tensor),
        ⟨[2, 2], [1, 2, 3, 4], by decide⟩]).length ∧
      ∀ (i : Nat) (n : String) (g : Tensor), (["a", "b"])[i]? = some n →
        ([(⟨[2], [3, 4], by decide⟩ : Tensor),
          ⟨[2, 2], [1, 2, 3, 4], by decide⟩])[i]? = some g →
        ∃ t, E[i]? = some t ∧ t.shape = g.shape ∧
          (∀ e, skelFind n [("b", (⟨7, [1, 2]⟩ : SkelEntry))] = some e →
            (∀ ix, inBounds ix e.shape = true → t.get ix = g.get ix) ∧
            (∀ ix, inBounds ix g.shape = true → inBounds ix e.shape = false →
              t.get ix = 0)) ∧
          (skelFind n [("b", (⟨7, [1, 2]⟩ : SkelEntry))] = none →
            ∀ ix, inBounds ix g.shape = true → t.get ix = 0)) :=
  ⟨by decide, by decide, by decide, by decide,
    partition_expand_roundtrip _ _ _ (by decide) (by decide) (by decide)
      (by decide)⟩

theorem iterInv_init {α β : Type} (X : List α) (y : List β)
    (b : Option Nat) (classes : Nat) (rng : DRng) :
    iterInv (DataIter.init X y b classes rng) := by
  constructor
  · cases b with
    | none => exact Nat.le_refl _
    | some b => exact Nat.min_le_right _ _
  · rfl

theorem iterInv_map {α β : Type} (it : DataIter α β)
    (f : List α × List β → List α × List β) : iterInv (it.map f) :=
  ⟨Nat.min_le_right _ _, rfl⟩

theorem iterInv_filter {α β : Type} (it : DataIter α β) (p : β → Bool) :
    iterInv (it.filter p) := by
  constructor
  · show min it.batch_size _ ≤ (List.map Prod.snd _).length
    rw [List.length_map]
    exact Nat.min_le_right _ _
  · show List.range _ = List.range (List.map Prod.snd _).length
    rw [List.length_map]

theorem iterInv_applyOps {α β : Type} (ops : List (DIterOp α β)) :
    ∀ it : DataIter α β, iterInv it → iterInv (applyOps it ops) := by
  induction ops with
  | nil =>
    intro it h
    exact h
  | cons op rest ih =>
    intro it h
    cases op with
    | map f => exact ih _ (iterInv_map it f)
    | filter p => exact ih _ (iterInv_filter it p)

/-- C10: the invariant `batch_size ≤ len(y)` with `idx = arange(len(y))`
holds after construction and is preserved by every `map` and every `filter`
call, because both re-clamp the batch size against the new label count and
rebuild `idx`; hence after any sequence of map/filter calls the
without-replacement draw of `__next__` is well-defined, never requesting
more distinct indices than are held (`batch_size ≤ len(idx)`). -/
theorem dataIter_invariant_preserved {α β : Type} (X : List α) (y : List β)
    (b : Option Nat) (classes : Nat) (rng : DRng)
    (ops : List (DIterOp α β)) :
    iterInv (applyOps (DataIter.init X y b classes rng) ops) ∧
    (applyOps (DataIter.init X y b classes rng) ops).batch_size ≤
      (applyOps (DataIter.init X y b classes rng) ops).idx.length := by
  have h := iterInv_applyOps ops _ (iterInv_init X y b classes rng)
  refine ⟨h, ?_⟩
  rw [h.2, List.length_range]
  exact h.1

theorem mapM_getElem?_of_lt {γ : Type} (l : List γ) :
    ∀ sel : List Nat, (∀ i ∈ sel, i < l.length) →
    sel.mapM (fun i => l[i]?) = some (sel.filterMap (fun i => l[i]?)) := by
  intro sel
  induction sel with
  | nil =>
    intro _
    rfl
  | cons i is ih =>
    intro h
    have hi : i < l.length := h i (List.mem_cons_self _ _)
    have hsome : l[i]? = some l[i] := List.getElem?_eq_getElem hi
    rw [List.mapM_cons, hsome,
      ih (fun j hj => h j (List.mem_cons_of_mem _ hj))]
    simp [List.filterMap_cons, hsome]

/-- C7: construction clamps the batch size to `min(b, len(y))` and holds the
full index range; whenever the generator's draw honours numpy's
`choice(idx, size, replace=False)` contract at this call — `batch_size`
distinct members of the held range, which is satisfiable precisely because
of the clamp — `next` returns the `(X, y)` rows of those indices, and it
never raises a stop/termination signal (the iterator fields are unchanged
by `next`, so the same holds for every repeated call). -/
theorem dataIter_next_spec {α β : Type} (X : List α) (y : List β) (b : Nat)
    (classes : Nat) (rng : DRng) (hXy : X.length = y.length)
    (hlenc : (rng.choice (List.range y.length) (min b y.length)).length =
      min b y.length)
    (hnodupc : (rng.choice (List.range y.length) (min b y.length)).Nodup)
    (hmemc : ∀ i ∈ rng.choice (List.range y.length) (min b y.length),
      i < y.length) :
    (DataIter.init X y (some b) classes rng).batch_size = min b y.length ∧
    (DataIter.init X y (some b) classes rng).idx = List.range y.length ∧
    ∃ sel : List Nat, sel.length = min b y.length ∧ sel.Nodup ∧
      (∀ i ∈ sel, i ∈ List.range y.length) ∧
      DataIter.next (DataIter.init X y (some b) classes rng) =
        some (sel.filterMap (fun i => X[i]?),
          sel.filterMap (fun i => y[i]?)) := by
  refine ⟨rfl, rfl, rng.choice (List.range y.length) (min b y.length),
    hlenc, hnodupc, fun i hi => List.mem_range.mpr (hmemc i hi), ?_⟩
  show (if min b y.length ≤ (List.range y.length).length then
      ((rng.choice (List.range y.length) (min b y.length)).mapM
        (fun i => X[i]?)).bind (fun xs =>
        ((rng.choice (List.range y.length) (min b y.length)).mapM
          (fun i => y[i]?)).map (fun ys => (xs, ys)))
    else none) = _
  rw [if_pos (by rw [List.length_range]; exact Nat.min_le_right _ _)]
  rw [mapM_getElem?_of_lt X _ (fun i hi => hXy ▸ hmemc i hi),
    mapM_getElem?_of_lt y _ hmemc]
  rfl

/-- Witness for `dataIter_next_spec` with three rows, batch size 2, and a
take-a-prefix generator. -/
theorem dataIter_next_spec_witness :
    (([10, 20, 30] : List Nat).length = ([5, 6, 7] : List Nat).length) ∧
    ((DRng.mk (fun l k => l.take k)).choice
      (List.range ([5, 6, 7] : List Nat).length)
      (min 2 ([5, 6, 7] : List Nat).length)).length =
      min 2 ([5, 6, 7] : List Nat).length ∧
    ((DRng.mk (fun l k => l.take k)).choice
      (List.range ([5, 6, 7] : List Nat).length)
      (min 2 ([5, 6, 7] : List Nat).length)).Nodup ∧
    (∀ i ∈ (DRng.mk (fun l k => l.take k)).choice
      (List.range ([5, 6, 7] : List Nat).length)
      (min 2 ([5, 6, 7] : List Nat).length), i < ([5, 6, 7] : List Nat).length) ∧
    ((DataIter.init ([10, 20, 30] : List Nat) ([5, 6, 7] : List Nat)
      (some 2) 3 (DRng.mk (fun l k => l.take k))).batch_size =
        min 2 ([5, 6, 7] : List Nat).length ∧
      (DataIter.init ([10, 20, 30] : List Nat) ([5, 6, 7] : List Nat)
        (some 2) 3 (DRng.mk (fun l k => l.take k))).idx =
        List.range ([5, 6, 7] : List Nat).length ∧
      ∃ sel : List Nat, sel.length = min 2 ([5, 6, 7] : List Nat).length ∧
        sel.Nodup ∧
        (∀ i ∈ sel, i ∈ List.range ([5, 6, 7] : List Nat).length) ∧
        DataIter.next (DataIter.init ([10, 20, 30] : List Nat)
          ([5, 6, 7] : List Nat) (some 2) 3
          (DRng.mk (fun l k => l.take k))) =
          some (sel.filterMap (fun i => ([10, 20, 30] : List Nat)[i]?),
            sel.filterMap (fun i => ([5, 6, 7] : List Nat)[i]?))) :=
  ⟨by decide, by decide, by decide, by decide,
    dataIter_next_spec _ _ _ _ _ (by decide) (by decide) (by decide)
      (by decide)⟩

/-- C8 counterexample: with `rng` omitted, the output of `uniform` depends
on ambient module state — the definition-time default generator — not only
on the call's arguments: identical calls under two different module states
produce different trees. -/
theorem uniform_default_ambient :
    (uniformCall [⟨[1], [0], by decide⟩] 0 1 none
      ⟨⟨fun _ => 0, 0⟩, ⟨fun _ => 0, 0⟩⟩).1 ≠
    (uniformCall [⟨[1], [0], by decide⟩] 0 1 none
      ⟨⟨fun _ => 1, 0⟩, ⟨fun _ => 0, 0⟩⟩).1 := by
  intro h
  have hd := congrArg (fun l => (l.map Tensor.data)) h
  simp only [uniformCall, uniformDraw, drawN, prodNat, Nat.mul_one,
    List.range_succ, List.range_zero, List.nil_append,
    List.map_cons, List.map_nil, List.cons.injEq, List.map_append] at hd
  norm_num at hd

/-- C8 (amended): when the caller supplies the generator at the call site,
`uniform` and `add_normal` draw randomness only from it — the result is a
function of the explicit arguments alone and the module state is returned
unchanged, so runs with equal generators and equal inputs produce identical
outputs; a call that omits `rng`, however, reads and advances a single
definition-time default generator shared by every call that omits it
(`uniform_default_ambient`), and the datasets.py defaults
(`Dataset.get_iter`, `Dataset.fed_split`) follow the same pattern. -/
theorem uniform_addNormal_explicit_rng (weights : List Tensor)
    (low high loc scale : ℚ) (r : Rng) (st st2 : ModState) :
    uniformCall weights low high (some r) st =
      ((uniformDraw low high r weights).1, st) ∧
    (uniformCall weights low high (some r) st).1 =
      (uniformCall weights low high (some r) st2).1 ∧
    addNormalCall weights loc scale (some r) st =
      ((addNormalDraw loc scale r weights).1, st) ∧
    (addNormalCall weights loc scale (some r) st).1 =
      (addNormalCall weights loc scale (some r) st2).1 :=
  ⟨rfl, rfl, rfl, rfl⟩

theorem npRound_ge_floor (x : ℚ) : ⌊x⌋ ≤ npRound x := by
  unfold npRound
  split_ifs <;> omega

theorem npRound_le_floor_add_one (x : ℚ) : npRound x ≤ ⌊x⌋ + 1 := by
  unfold npRound
  split_ifs <;> omega

theorem npRound_nonneg {x : ℚ} (h : 0 ≤ x) : 0 ≤ npRound x := by
  have h0 : (0 : Int) ≤ ⌊x⌋ := Int.le_floor.mpr (by exact_mod_cast h)
  have h1 := npRound_ge_floor x
  omega

theorem npRound_mono {x y : ℚ} (h : x ≤ y) : npRound x ≤ npRound y := by
  have hf : ⌊x⌋ ≤ ⌊y⌋ := Int.floor_le_floor h
  rcases lt_or_eq_of_le hf with hlt | heq
  · have h1 := npRound_le_floor_add_one x
    have h2 := npRound_ge_floor y
    omega
  · have hr : x - (⌊x⌋ : ℚ) ≤ y - (⌊x⌋ : ℚ) := by linarith
    unfold npRound
    simp only [← heq]
    split_ifs <;> first | omega | linarith

theorem cumsumFrom_facts : ∀ (l : List ℚ) (a : ℚ), (∀ q ∈ l, 0 ≤ q) →
    List.Chain' (· ≤ ·) (cumsumFrom a l) ∧ ∀ x ∈ cumsumFrom a l, a ≤ x := by
  intro l
  induction l with
  | nil =>
    intro a _
    refine ⟨List.chain'_nil, ?_⟩
    intro x hx
    simp [cumsumFrom] at hx
  | cons q qs ih =>
    intro a h
    have hq : 0 ≤ q := h q (List.mem_cons_self _ _)
    have hqs : ∀ r ∈ qs, 0 ≤ r := fun r hr => h r (List.mem_cons_of_mem _ hr)
    obtain ⟨hchain, hmem⟩ := ih (a + q) hqs
    constructor
    · rw [cumsumFrom, List.chain'_cons']
      exact ⟨fun y hy => hmem y (List.mem_of_mem_head? hy), hchain⟩
    · intro x hx
      rw [cumsumFrom] at hx
      cases List.mem_cons.mp hx with
      | inl h1 =>
        subst h1
        linarith
      | inr h2 =>
        have := hmem x h2
        linarith

theorem cumsumFrom_length : ∀ (l : List ℚ) (a : ℚ),
    (cumsumFrom a l).length = l.length := by
  intro l
  induction l with
  | nil => intro a; rfl
  | cons q qs ih =>
    intro a
    simp [cumsumFrom, ih]

theorem ldaBounds_chain (row : List ℚ) (L : Nat)
    (hrow : ∀ q ∈ row, 0 ≤ q) :
    List.Chain' (· ≤ ·) ((0 : Int) ::
      ((cumsum row).map (fun q => npRound (q * (L : ℚ)))).dropLast) := by
  obtain ⟨hchain, hmem⟩ := cumsumFrom_facts row 0 hrow
  have hmapchain : List.Chain' (· ≤ ·)
      ((cumsum row).map (fun q => npRound (q * (L : ℚ)))) := by
    rw [List.chain'_map]
    exact hchain.imp (fun a b hab =>
      npRound_mono (mul_le_mul_of_nonneg_right hab (Nat.cast_nonneg L)))
  have hdrop := hmapchain.prefix (List.dropLast_prefix _)
  rw [List.chain'_cons']
  refine ⟨?_, hdrop⟩
  intro y hy
  have hym := List.mem_of_mem_dropLast (List.mem_of_mem_head? hy)
  obtain ⟨x, hx, rfl⟩ := List.mem_map.mp hym
  have hx0 : 0 ≤ x := by
    have := hmem x hx
    linarith
  exact npRound_nonneg (mul_nonneg hx0 (Nat.cast_nonneg L))

theorem pyClampIdx_le (n : Nat) (i : Int) : pyClampIdx n i ≤ n := by
  unfold pyClampIdx
  split_ifs <;> omega

theorem pyClampIdx_mono {n : Nat} {a b : Int} (h0 : 0 ≤ a) (hab : a ≤ b) :
    pyClampIdx n a ≤ pyClampIdx n b := by
  unfold pyClampIdx
  rw [if_neg (by omega), if_neg (by omega)]
  exact min_le_min (Int.toNat_le_toNat hab) (Nat.le_refl n)

theorem npSplitFrom_flatten {γ : Type} (l : List γ) :
    ∀ (bs : List Int) (prev : Int), 0 ≤ prev →
    List.Chain' (· ≤ ·) (prev :: bs) →
    (npSplitFrom l prev bs).flatten = l.drop (pyClampIdx l.length prev) := by
  intro bs
  induction bs with
  | nil =>
    intro prev _ _
    simp only [npSplitFrom, List.flatten_cons, List.flatten_nil,
      List.append_nil, pySlice]
    rw [show pyClampIdx l.length (l.length : Int) = l.length by
      simp [pyClampIdx]]
    rw [List.take_length]
  | cons b bs ih =>
    intro prev h0 hchain
    obtain ⟨hpb, hrest⟩ := List.chain'_cons.mp hchain
    have h0b : 0 ≤ b := le_trans h0 hpb
    rw [show npSplitFrom l prev (b :: bs) =
      pySlice l prev b :: npSplitFrom l b bs from rfl]
    rw [List.flatten_cons, ih b h0b hrest]
    show (l.take (pyClampIdx l.length b)).drop (pyClampIdx l.length prev) ++
      l.drop (pyClampIdx l.length b) = l.drop (pyClampIdx l.length prev)
    have key : ∀ (cb cp : Nat), cp ≤ cb → cp ≤ l.length →
        (l.take cb).drop cp ++ l.drop cb = l.drop cp := by
      intro cb cp h1 h2
      conv_rhs => rw [← List.take_append_drop cb l]
      rw [List.drop_append_of_le_length
        (by rw [List.length_take]; exact le_min h1 h2)]
    exact key _ _ (pyClampIdx_mono h0 hpb) (pyClampIdx_le _ _)

theorem npSplit_flatten {γ : Type} (l : List γ) (bs : List Int)
    (h : List.Chain' (· ≤ ·) ((0 : Int) :: bs)) :
    (npSplit l bs).flatten = l := by
  rw [npSplit, npSplitFrom_flatten l bs 0 (le_refl 0) h]
  rw [show pyClampIdx l.length 0 = 0 by simp [pyClampIdx]]
  rfl

theorem npSplitFrom_length {γ : Type} (l : List γ) :
    ∀ (bs : List Int) (prev : Int),
    (npSplitFrom l prev bs).length = bs.length + 1 := by
  intro bs
  induction bs with
  | nil => intro prev; rfl
  | cons b bs ih =>
    intro prev
    simp [npSplitFrom, ih]

theorem range_map_getD_eq_zipWith : ∀ (p d : List (List Nat)),
    d.length = p.length →
    (List.range p.length).map (fun i => d.getD i [] ++ p.getD i []) =
    List.zipWith (· ++ ·) d p := by
  intro p
  induction p with
  | nil =>
    intro d h
    cases d with
    | nil => rfl
    | cons _ _ => simp at h
  | cons ph pt ih =>
    intro d h
    cases d with
    | nil => simp at h
    | cons dh dt =>
      rw [show (ph :: pt).length = pt.length + 1 from rfl,
        List.range_succ_eq_map, List.map_cons, List.map_map,
        List.zipWith_cons_cons]
      congr 1
      rw [← ih dt (by simpa using h)]
      apply List.map_congr_left
      intro a _
      show (dh :: dt).getD (Nat.succ a) [] ++ (ph :: pt).getD (Nat.succ a) [] =
        dt.getD a [] ++ pt.getD a []
      rw [List.getD_cons_succ, List.getD_cons_succ]

theorem flatten_zipWith_append_perm : ∀ (d p : List (List Nat)),
    d.length = p.length →
    (List.zipWith (· ++ ·) d p).flatten.Perm (d.flatten ++ p.flatten) := by
  intro d
  induction d with
  | nil =>
    intro p h
    cases p with
    | nil => exact List.Perm.refl _
    | cons _ _ => simp at h
  | cons dh dt ih =>
    intro p h
    cases p with
    | nil => simp at h
    | cons ph pt =>
      simp only [List.zipWith_cons_cons, List.flatten_cons]
      have h1 : ((dh ++ ph) ++ (List.zipWith (· ++ ·) dt pt).flatten).Perm
          ((dh ++ ph) ++ (dt.flatten ++ pt.flatten)) :=
        List.Perm.append (List.Perm.refl _) (ih pt (by simpa using h))
      refine h1.trans ?_
      have h2 : ((dh ++ ph) ++ (dt.flatten ++ pt.flatten)).Perm
          ((dh ++ dt.flatten) ++ (ph ++ pt.flatten)) := by
        rw [List.append_assoc, List.append_assoc]
        apply List.Perm.append_left
        rw [← List.append_assoc, ← List.append_assoc]
        exact List.Perm.append List.perm_append_comm (List.Perm.refl _)
      exact h2

theorem filter_flatten (p : Nat → Bool) : ∀ (l : List (List Nat)),
    (l.map (List.filter p)).flatten = l.flatten.filter p := by
  intro l
  induction l with
  | nil => rfl
  | cons x xs ih =>
    rw [List.map_cons, List.flatten_cons, List.flatten_cons,
      List.filter_append, ih]

theorem zipAppend_spec (φ : Nat → Bool) (dist dists : List (List Nat))
    (h : dist.length = dists.length) :
    ((List.range dists.length).map
      (fun i => dist.getD i [] ++ dists.getD i [])).length = dists.length ∧
    (((List.range dists.length).map
      (fun i => dist.getD i [] ++ dists.getD i [])).map
        (List.filter φ)).flatten.Perm
      ((dist.map (List.filter φ)).flatten ++ dists.flatten.filter φ) := by
  constructor
  · simp
  · rw [range_map_getD_eq_zipWith dists dist h]
    rw [List.map_zipWith]
    have heq : List.zipWith (fun a b => (a ++ b).filter φ) dist dists =
        List.zipWith (· ++ ·) (dist.map (List.filter φ))
          (dists.map (List.filter φ)) := by
      rw [List.zipWith_map]
      congr 1
      funext a b
      exact List.filter_append a b
    rw [heq]
    refine (flatten_zipWith_append_perm _ _ (by simp [h])).trans ?_
    rw [filter_flatten φ dists]

theorem ldaStep_spec (Y : List Nat) (rng : LdaRng) (P : List (List ℚ))
    (nclients : Nat) (hk : 1 ≤ nclients)
    (hshuffle : ∀ l : List Nat, (rng.shuffle l).Perm l)
    (φ : Nat → Bool) (c : Nat)
    (hrowlen : (P.getD c []).length = nclients)
    (hrownn : ∀ q ∈ P.getD c [], 0 ≤ q)
    (dist : List (List Nat)) (hd : dist.length = nclients) :
    (ldaStep Y rng P dist c).length = nclients ∧
    ((ldaStep Y rng P dist c).map (List.filter φ)).flatten.Perm
      ((dist.map (List.filter φ)).flatten ++ (posOf Y c).filter φ) := by
  have hsh := hshuffle (posOf Y c)
  set idxc := rng.shuffle (posOf Y c) with hidxc
  set D := npSplit idxc
    (((cumsum (P.getD c [])).map
      (fun q => npRound (q * (idxc.length : ℚ)))).dropLast) with hD
  have hstep : ldaStep Y rng P dist c =
      (List.range D.length).map (fun i => dist.getD i [] ++ D.getD i []) := rfl
  have hdl : D.length = nclients := by
    rw [hD, npSplit, npSplitFrom_length, List.length_dropLast,
      List.length_map, cumsum, cumsumFrom_length, hrowlen]
    omega
  have hflat : D.flatten = idxc := by
    rw [hD]
    exact npSplit_flatten _ _ (ldaBounds_chain (P.getD c []) _ hrownn)
  obtain ⟨hza, hzp⟩ := zipAppend_spec φ dist D (by rw [hd, hdl])
  rw [hstep]
  constructor
  · rw [hza, hdl]
  · refine hzp.trans ?_
    apply List.Perm.append_left
    rw [hflat]
    exact hsh.filter φ

theorem lda_fold_spec (Y : List Nat) (rng : LdaRng) (P : List (List ℚ))
    (nclients : Nat) (hk : 1 ≤ nclients)
    (hshuffle : ∀ l : List Nat, (rng.shuffle l).Perm l) (φ : Nat → Bool) :
    ∀ (cs : List Nat) (dist : List (List Nat)), dist.length = nclients →
    (∀ c ∈ cs, (P.getD c []).length = nclients ∧
      ∀ q ∈ P.getD c [], 0 ≤ q) →
    (cs.foldl (ldaStep Y rng P) dist).length = nclients ∧
    ((cs.foldl (ldaStep Y rng P) dist).map (List.filter φ)).flatten.Perm
      ((dist.map (List.filter φ)).flatten ++
        cs.flatMap (fun c => (posOf Y c).filter φ)) := by
  intro cs
  induction cs with
  | nil =>
    intro dist hd _
    refine ⟨hd, ?_⟩
    simp
  | cons c cs ih =>
    intro dist hd hcs
    obtain ⟨hrl, hrn⟩ := hcs c (List.mem_cons_self _ _)
    obtain ⟨hl1, hp1⟩ :=
      ldaStep_spec Y rng P nclients hk hshuffle φ c hrl hrn dist hd
    obtain ⟨hl2, hp2⟩ := ih (ldaStep Y rng P dist c) hl1
      (fun c2 hc2 => hcs c2 (List.mem_cons_of_mem _ hc2))
    rw [List.foldl_cons]
    refine ⟨hl2, ?_⟩
    refine hp2.trans ?_
    rw [List.flatMap_cons]
    refine (List.Perm.append hp1 (List.Perm.refl _)).trans ?_
    rw [List.append_assoc]

theorem filter_or_perm (p q : Nat → Bool) : ∀ (l : List Nat),
    (∀ x ∈ l, ¬(p x = true ∧ q x = true)) →
    (l.filter p ++ l.filter q).Perm (l.filter (fun x => p x || q x)) := by
  intro l
  induction l with
  | nil =>
    intro _
    exact List.Perm.refl _
  | cons x xs ih =>
    intro h
    have hx := h x (List.mem_cons_self _ _)
    have ih2 := ih (fun z hz => h z (List.mem_cons_of_mem _ hz))
    by_cases hp : p x = true
    · have hq : q x = false := by
        cases hq2 : q x with
        | false => rfl
        | true => exact absurd ⟨hp, hq2⟩ hx
      rw [List.filter_cons, List.filter_cons, List.filter_cons,
        if_pos hp, if_neg (by simp [hq]), if_pos (by simp [hp]),
        List.cons_append]
      exact ih2.cons x
    · have hp2 : p x = false := by simpa using hp
      by_cases hq : q x = true
      · rw [List.filter_cons, List.filter_cons, List.filter_cons,
          if_neg (by simp [hp2]), if_pos hq, if_pos (by simp [hq])]
        exact List.Perm.trans List.perm_middle (ih2.cons x)
      · have hq2 : q x = false := by simpa using hq
        rw [List.filter_cons, List.filter_cons, List.filter_cons,
          if_neg (by simp [hp2]), if_neg (by simp [hq2]),
          if_neg (by simp [hp2, hq2])]
        exact ih2

theorem flatMap_posOf_perm (Y : List Nat) : ∀ (C : Nat),
    ((List.range C).flatMap (fun c => posOf Y c)).Perm
      ((List.range Y.length).filter
        (fun i => (Y[i]?).any (fun v => decide (v < C)))) := by
  intro C
  induction C with
  | zero =>
    have hnil : (List.range Y.length).filter
        (fun i => (Y[i]?).any (fun v => decide (v < 0))) = [] := by
      apply List.filter_eq_nil_iff.mpr
      intro a _
      cases hYa : Y[a]? with
      | none => simp
      | some v => simp [hYa]
    rw [List.range_zero, List.flatMap_nil, hnil]
  | succ C ih =>
    rw [List.range_succ, List.flatMap_append, List.flatMap_cons,
      List.flatMap_nil, List.append_nil]
    refine (List.Perm.append ih (List.Perm.refl _)).trans ?_
    have hdisj : ∀ x ∈ List.range Y.length,
        ¬(((Y[x]?).any (fun v => decide (v < C)) = true) ∧
          ((Y[x]? == some C) = true)) := by
      rintro x _ ⟨h1, h2⟩
      rw [beq_iff_eq] at h2
      rw [h2] at h1
      simp at h1
    refine (filter_or_perm _ _ (List.range Y.length) hdisj).trans ?_
    have heq : (List.range Y.length).filter
        (fun x => (Y[x]?).any (fun v => decide (v < C)) ||
          (Y[x]? == some C)) =
        (List.range Y.length).filter
          (fun i => (Y[i]?).any (fun v => decide (v < C + 1))) := by
      apply List.filter_congr
      intro x _
      cases hYx : Y[x]? with
      | none => rfl
      | some v =>
        show (decide (v < C) || (v == C)) = decide (v < C + 1)
        by_cases h1 : v < C
        · rw [decide_eq_true h1, decide_eq_true (by omega : v < C + 1)]
          rfl
        · by_cases h2 : v = C
          · subst h2
            rw [decide_eq_false h1, beq_self_eq_true,
              decide_eq_true (Nat.lt_succ_self v)]
            rfl
          · have hvc : (v == C) = false := beq_eq_false_iff_ne.mpr h2
            rw [decide_eq_false h1,
              decide_eq_false (by omega : ¬v < C + 1), hvc]
            rfl
    rw [heq]

theorem flatMap_posOf_all (Y : List Nat) (C : Nat) (hY : ∀ v ∈ Y, v < C) :
    ((List.range C).flatMap (fun c => posOf Y c)).Perm
      (List.range Y.length) := by
  refine (flatMap_posOf_perm Y C).trans ?_
  have heq : (List.range Y.length).filter
      (fun i => (Y[i]?).any (fun v => decide (v < C))) =
      List.range Y.length := by
    apply List.filter_eq_self.mpr
    intro i hi
    have hilt := List.mem_range.mp hi
    rw [List.getElem?_eq_getElem hilt]
    exact decide_eq_true (hY _ (List.getElem_mem hilt))
  rw [heq]

theorem flatMap_eq_nil_of (g : Nat → List Nat) :
    ∀ cs : List Nat, (∀ c ∈ cs, g c = []) → cs.flatMap g = [] := by
  intro cs
  induction cs with
  | nil =>
    intro _
    rfl
  | cons a cs ih =>
    intro h
    rw [List.flatMap_cons, h a (List.mem_cons_self _ _), List.nil_append]
    exact ih (fun c hc => h c (List.mem_cons_of_mem _ hc))

theorem flatMap_single (g : Nat → List Nat) (c : Nat) :
    ∀ cs : List Nat, cs.Nodup → c ∈ cs →
    (∀ c2 ∈ cs, c2 ≠ c → g c2 = []) → cs.flatMap g = g c := by
  intro cs
  induction cs with
  | nil =>
    intro _ h
    simp at h
  | cons a cs ih =>
    intro hnd hmem hnil
    by_cases hac : a = c
    · subst hac
      rw [List.flatMap_cons,
        flatMap_eq_nil_of g cs (fun c2 hc2 =>
          hnil c2 (List.mem_cons_of_mem _ hc2)
            (fun he => (List.nodup_cons.mp hnd).1 (he ▸ hc2))),
        List.append_nil]
    · rw [List.flatMap_cons, hnil a (List.mem_cons_self _ _) hac,
        List.nil_append]
      refine ih (List.nodup_cons.mp hnd).2 ?_
        (fun c2 hc2 h2 => hnil c2 (List.mem_cons_of_mem _ hc2) h2)
      cases List.mem_cons.mp hmem with
      | inl h => exact absurd h.symm hac
      | inr h => exact h

theorem flatten_replicate_nil : ∀ n : Nat,
    (List.replicate n ([] : List Nat)).flatten = [] := by
  intro n
  induction n with
  | zero => rfl
  | succ n ih =>
    rw [List.replicate_succ, List.flatten_cons, List.nil_append]
    exact ih

theorem map_filter_true : ∀ (l : List (List Nat)),
    l.map (List.filter (fun _ => true)) = l := by
  intro l
  induction l with
  | nil => rfl
  | cons x xs ih =>
    rw [List.map_cons, List.filter_eq_self.mpr (fun _ _ => rfl), ih]

/-- C6: for every label vector `Y` over `nclasses` classes, client count
`k ≥ 1`, random generator (modelled by its numpy contract: `shuffle`
permutes its input and the Dirichlet draw yields one row of `k` nonnegative
proportions per class) and `alpha > 0`, `lda` returns exactly `k` index
lists; the concatenation of all clients' lists is a permutation of all
sample positions (hence no index appears in two different clients' lists),
and for every class `c` the union over clients of the returned indices
whose label is `c` is exactly the set of positions of `Y` holding `c`,
without duplication. -/
theorem lda_coverage (Y : List Nat) (nclients nclasses : Nat) (rng : LdaRng)
    (alpha : ℚ) (halpha : 0 < alpha) (hk : 1 ≤ nclients)
    (hY : ∀ v ∈ Y, v < nclasses)
    (hshuffle : ∀ l : List Nat, (rng.shuffle l).Perm l)
    (hrows : ∀ c, c < nclasses →
      ((rng.dirichlet (List.replicate nclients alpha) nclasses).getD c
        []).length = nclients ∧
      ∀ q ∈ (rng.dirichlet (List.replicate nclients alpha)
        nclasses).getD c [], 0 ≤ q) :
    (lda Y nclients nclasses rng alpha).length = nclients ∧
    (lda Y nclients nclasses rng alpha).flatten.Perm
      (List.range Y.length) ∧
    ∀ c, c < nclasses →
      ((lda Y nclients nclasses rng alpha).map
        (List.filter (fun i => Y[i]? == some c))).flatten.Perm
        (posOf Y c) := by
  have hfold := fun (φ : Nat → Bool) =>
    lda_fold_spec Y rng (rng.dirichlet (List.replicate nclients alpha)
      nclasses) nclients hk hshuffle φ (List.range nclasses)
      (List.replicate nclients []) (by simp)
      (fun c hc => hrows c (List.mem_range.mp hc))
  have hlda : lda Y nclients nclasses rng alpha =
      (List.range nclasses).foldl
        (ldaStep Y rng (rng.dirichlet (List.replicate nclients alpha)
          nclasses)) (List.replicate nclients []) := rfl
  refine ⟨?_, ?_, ?_⟩
  · rw [hlda]
    exact (hfold (fun _ => true)).1
  · obtain ⟨_, hperm⟩ := hfold (fun _ => true)
    rw [map_filter_true, map_filter_true, flatten_replicate_nil,
      List.nil_append] at hperm
    simp only [List.filter_true] at hperm
    rw [hlda]
    exact hperm.trans (flatMap_posOf_all Y nclasses hY)
  · intro c hc
    obtain ⟨_, hperm⟩ := hfold (fun i => Y[i]? == some c)
    rw [List.map_replicate] at hperm
    simp only [List.filter_nil] at hperm
    rw [flatten_replicate_nil, List.nil_append] at hperm
    have hsingle : (List.range nclasses).flatMap
        (fun c2 => (posOf Y c2).filter (fun i => Y[i]? == some c)) =
        (posOf Y c).filter (fun i => Y[i]? == some c) := by
      apply flatMap_single
      · exact List.nodup_range nclasses
      · exact List.mem_range.mpr hc
      · intro c2 _ hne
        apply List.filter_eq_nil_iff.mpr
        intro a ha
        have hmem := (List.mem_filter.mp ha).2
        rw [beq_iff_eq] at hmem
        rw [hmem]
        simp [hne]
    rw [hsingle] at hperm
    have hself : (posOf Y c).filter (fun i => Y[i]? == some c) =
        posOf Y c := by
      apply List.filter_eq_self.mpr
      intro a ha
      exact (List.mem_filter.mp ha).2
    rw [hself] at hperm
    rw [hlda]
    exact hperm

/-- Witness for `lda_coverage`: three samples of two classes split between
two clients with an identity shuffle and a deterministic proportion
matrix. -/
theorem lda_coverage_witness :
    ((0 : ℚ) < 1) ∧ (1 ≤ 2) ∧ (∀ v ∈ [0, 1, 0], v < 2) ∧
    (∀ l : List Nat,
      ((⟨fun _ _ => [[1, 0], [0, 1]], fun l => l⟩ : LdaRng).shuffle l).Perm
        l) ∧
    (∀ c, c < 2 →
      (((⟨fun _ _ => [[1, 0], [0, 1]], fun l => l⟩ : LdaRng).dirichlet
        (List.replicate 2 (1 : ℚ)) 2).getD c []).length = 2 ∧
      ∀ q ∈ ((⟨fun _ _ => [[1, 0], [0, 1]], fun l => l⟩ : LdaRng).dirichlet
        (List.replicate 2 (1 : ℚ)) 2).getD c [], 0 ≤ q) ∧
    ((lda [0, 1, 0] 2 2
        ⟨fun _ _ => [[1, 0], [0, 1]], fun l => l⟩ 1).length = 2 ∧
      (lda [0, 1, 0] 2 2
        ⟨fun _ _ => [[1, 0], [0, 1]], fun l => l⟩ 1).flatten.Perm
        (List.range ([0, 1, 0] : List Nat).length) ∧
      ∀ c, c < 2 →
        ((lda [0, 1, 0] 2 2
          ⟨fun _ _ => [[1, 0], [0, 1]], fun l => l⟩ 1).map
          (List.filter (fun i => ([0, 1, 0] : List Nat)[i]? ==
            some c))).flatten.Perm (posOf [0, 1, 0] c)) :=
  ⟨by decide, by decide, by decide, fun l => List.Perm.refl l, by decide,
    lda_coverage [0, 1, 0] 2 2 ⟨fun _ _ => [[1, 0], [0, 1]], fun l => l⟩ 1
      (by decide) (by decide) (by decide) (fun l => List.Perm.refl l)
      (by decide)⟩

end FL
